import Mathlib

/-!
Verification of the XOR linked list from `src/src/lib.rs`.

The Rust code stores, per node, a single `xor_ptr` field holding the XOR of
the addresses of the node's two neighbours (a missing neighbour contributes
the null pointer, i.e. `0`).  We embed the code shallowly: pointers are
natural numbers (`0` is null), the heap is a partial map from pointers to
nodes, and allocation hands out consecutive fresh addresses starting from a
counter that is part of the state.  Every operation that dereferences
pointers returns `Option`: `none` models undefined behaviour (dereferencing
an unallocated pointer) or a panic; under the well-formedness invariant the
operations are shown never to produce `none` except where the source panics.
-/

set_option maxHeartbeats 1000000

namespace XorList

/-- The `xor_ptrs` from the source: XOR of the two pointer values.
XOR of machine words cannot overflow, so plain `Nat.xor` is exact. -/
def xor_ptrs (a b : Nat) : Nat := a ^^^ b

/-- A heap node (`XorNode<T>` in the source): a payload and the single XOR
link field. -/
structure XorNode (T : Type) where
  payload : T
  xor_ptr : Nat

/-- The heap: a partial map from pointer values to allocated nodes. -/
abbrev Mem (T : Type) := Nat → Option (XorNode T)

/-- Write a node to the heap at address `a`. -/
def hset (m : Mem T) (a : Nat) (n : XorNode T) : Mem T :=
  fun x => if x = a then some n else m x

/-- Deallocate the node at address `a` (models `Box::from_raw` dropping it). -/
def hdel (m : Mem T) (a : Nat) : Mem T :=
  fun x => if x = a then none else m x

/-- The list state (`XorLinkedList<T>` in the source: fields `size`, `start`,
`end`) together with the heap and the allocator's next fresh address.
`endp` stands for the source field `end`, which is a reserved word in Lean. -/
structure XorLinkedList (T : Type) where
  size : Nat
  start : Nat
  endp : Nat
  mem : Mem T
  next : Nat

/-- The `XorLinkedList::new`: the empty list over an empty heap; fresh addresses
start at `1` so that no allocation ever returns the null pointer. -/
def new (T : Type) : XorLinkedList T :=
  { size := 0, start := 0, endp := 0, mem := fun _ => none, next := 1 }

/-- The `XorLinkedList::len`. -/
def len (s : XorLinkedList T) : Nat := s.size

/-- The `XorLinkedList::is_empty`. -/
def is_empty (s : XorLinkedList T) : Bool := s.size = 0

/-- The `XorLinkedList::peek_front`: `None` on the empty list, otherwise the
payload of the node at `start`.  The outer `Option` is the embedding's
undefined-behaviour channel (dereferencing an unallocated pointer). -/
def peek_front (s : XorLinkedList T) : Option (Option T) :=
  if s.size = 0 then some none
  else
    match s.mem s.start with
    | none => none
    | some n => some (some n.payload)

/-- The `XorLinkedList::peek_front_mut`: same reads as `peek_front` (the borrow
it hands out has no structural effect). -/
def peek_front_mut (s : XorLinkedList T) : Option (Option T) :=
  if s.size = 0 then some none
  else
    match s.mem s.start with
    | none => none
    | some n => some (some n.payload)

/-- The `XorLinkedList::peek_back`. -/
def peek_back (s : XorLinkedList T) : Option (Option T) :=
  if s.size = 0 then some none
  else
    match s.mem s.endp with
    | none => none
    | some n => some (some n.payload)

/-- The `XorLinkedList::peek_back_mut`. -/
def peek_back_mut (s : XorLinkedList T) : Option (Option T) :=
  if s.size = 0 then some none
  else
    match s.mem s.endp with
    | none => none
    | some n => some (some n.payload)

/-- The `XorLinkedList::push_end(end_ptr1, end_ptr2, value)`: allocate a node at
the next fresh address; if the `end_ptr2` anchor is null the list was empty
and both anchors become the new node; otherwise XOR the new address into the
old `end_ptr2` node's link, set the new node's link to the old anchor, and
move the anchor.  Returns the updated `(end_ptr1, end_ptr2, heap, next)`. -/
def push_end (e1 e2 : Nat) (value : T) (mem : Mem T) (next : Nat) :
    Option (Nat × Nat × Mem T × Nat) :=
  let new_node := next
  let mem1 := hset mem new_node ⟨value, 0⟩
  if e2 = 0 then
    some (new_node, new_node, mem1, next + 1)
  else
    match mem1 e2 with
    | none => none
    | some n2 =>
      let mem2 := hset mem1 e2 ⟨n2.payload, xor_ptrs n2.xor_ptr new_node⟩
      let mem3 := hset mem2 new_node ⟨value, e2⟩
      some (e1, new_node, mem3, next + 1)

/-- The `XorLinkedList::push_back`: increment `size`, then `push_end` with
`end_ptr1 = start`, `end_ptr2 = end`. -/
def push_back (s : XorLinkedList T) (value : T) : Option (XorLinkedList T) :=
  match push_end s.start s.endp value s.mem s.next with
  | none => none
  | some (st, en, m, nx) =>
    some { size := s.size + 1, start := st, endp := en, mem := m, next := nx }

/-- The `XorLinkedList::push_front`: increment `size`, then `push_end` with
`end_ptr1 = end`, `end_ptr2 = start`. -/
def push_front (s : XorLinkedList T) (value : T) : Option (XorLinkedList T) :=
  match push_end s.endp s.start value s.mem s.next with
  | none => none
  | some (en, st, m, nx) =>
    some { size := s.size + 1, start := st, endp := en, mem := m, next := nx }

/-- The `XorLinkedList::pop_end(size, end_ptr1, end_ptr2)`: `None` result (and an
unchanged state) when the `end_ptr1` anchor is null; when both anchors are the
same single node, null both anchors; otherwise the popped anchor's link *is*
its lone neighbour's address, which becomes the new anchor, and the removed
address is XORed out of the new anchor's link.  The removed node is
deallocated and `size` decremented.  Returns
`(popped payload?, size, end_ptr1, end_ptr2, heap)`. -/
def pop_end (size : Nat) (e1 e2 : Nat) (mem : Mem T) :
    Option (Option T × Nat × Nat × Nat × Mem T) :=
  if e1 = 0 then
    some (none, size, e1, e2, mem)
  else
    let old_ptr := e1
    match mem old_ptr with
    | none => none
    | some old_node =>
      if e1 = e2 then
        some (some old_node.payload, size - 1, 0, 0, hdel mem old_ptr)
      else
        let e1n := old_node.xor_ptr
        match mem e1n with
        | none => none
        | some n1 =>
          let mem1 := hset mem e1n ⟨n1.payload, xor_ptrs n1.xor_ptr old_ptr⟩
          some (some old_node.payload, size - 1, e1n, e2, hdel mem1 old_ptr)

/-- The `XorLinkedList::pop_front`: `pop_end` on `(size, start, end)`. -/
def pop_front (s : XorLinkedList T) : Option (Option T × XorLinkedList T) :=
  match pop_end s.size s.start s.endp s.mem with
  | none => none
  | some (r, sz, st, en, m) =>
    some (r, { size := sz, start := st, endp := en, mem := m, next := s.next })

/-- The `XorLinkedList::pop_back`: `pop_end` on `(size, end, start)`. -/
def pop_back (s : XorLinkedList T) : Option (Option T × XorLinkedList T) :=
  match pop_end s.size s.endp s.start s.mem with
  | none => none
  | some (r, sz, en, st, m) =>
    some (r, { size := sz, start := st, endp := en, mem := m, next := s.next })

/-- The decode-and-advance loop shared by `get_ptr_at`,
`get_ptr_at_and_prev` and the borrowing iterators: starting from
`(prev, cur)`, take the given number of steps, each step decoding
`next = xor_ptrs(cur.xor_ptr, prev)`.  Returns the final `(cur, prev)`
pair, or `none` if a step dereferences an unallocated pointer. -/
def walkSteps (mem : Mem T) : Nat → Nat → Nat → Option (Nat × Nat)
  | 0, prev, cur => some (cur, prev)
  | k + 1, prev, cur =>
    match mem cur with
    | none => none
    | some n => walkSteps mem k cur (xor_ptrs n.xor_ptr prev)

/-- The `XorLinkedList::get_ptr_at(index)`: walk `index` steps from `start` if
`index <= size / 2`, else `size - index - 1` steps from `end`. -/
def get_ptr_at (s : XorLinkedList T) (index : Nat) : Option Nat :=
  let startPair : Nat × Nat :=
    if index > s.size / 2 then (s.endp, s.size - index - 1) else (s.start, index)
  (walkSteps s.mem startPair.2 0 startPair.1).map Prod.fst

/-- The `XorLinkedList::get(index)`: `None` if `index >= size`, otherwise the
payload of the node located by `get_ptr_at`. -/
def get (s : XorLinkedList T) (index : Nat) : Option (Option T) :=
  if index ≥ s.size then some none
  else
    match get_ptr_at s index with
    | none => none
    | some p =>
      match s.mem p with
      | none => none
      | some n => some (some n.payload)

/-- The `XorLinkedList::get_mut(index)`: same reads as `get`. -/
def get_mut (s : XorLinkedList T) (index : Nat) : Option (Option T) :=
  if index ≥ s.size then some none
  else
    match get_ptr_at s index with
    | none => none
    | some p =>
      match s.mem p with
      | none => none
      | some n => some (some n.payload)

/-- The `XorLinkedList::get_ptr_at_and_prev(index)`: walk `index` steps from
`start` if `index <= size / 2`, else `size - index` steps from `end`, then
swap the `(current, previous)` pair for the backward walk. -/
def get_ptr_at_and_prev (s : XorLinkedList T) (index : Nat) :
    Option (Nat × Nat) :=
  let startPair : Nat × Nat :=
    if index > s.size / 2 then (s.endp, s.size - index) else (s.start, index)
  match walkSteps s.mem startPair.2 0 startPair.1 with
  | none => none
  | some (c, p) =>
    -- swap current and previous for backwards iteration
    if index > s.size / 2 then some (p, c) else some (c, p)

/-- The `XorLinkedList::insert_at(index, value)`.  The source `assert!`s
`index <= size` (a panic, modelled as `none`); `index == 0` and
`index == size` degenerate to `push_front`/`push_back`; otherwise the edge
between the nodes at `index - 1` and `index` is XOR-patched out, a new node
is allocated with link `xor_ptrs(current, prev)`, and the new address is
XOR-patched into both neighbours' links. -/
def insert_at (s : XorLinkedList T) (index : Nat) (value : T) :
    Option (XorLinkedList T) :=
  if index > s.size then none
  else if index = 0 then push_front s value
  else if index = s.size then push_back s value
  else
    match get_ptr_at_and_prev s index with
    | none => none
    | some (current_ptr, prev_ptr) =>
      match s.mem current_ptr with
      | none => none
      | some nc =>
        let mem1 := hset s.mem current_ptr ⟨nc.payload, xor_ptrs nc.xor_ptr prev_ptr⟩
        match mem1 prev_ptr with
        | none => none
        | some np =>
          let mem2 := hset mem1 prev_ptr ⟨np.payload, xor_ptrs np.xor_ptr current_ptr⟩
          let new_node := s.next
          let mem3 := hset mem2 new_node ⟨value, xor_ptrs current_ptr prev_ptr⟩
          match mem3 current_ptr with
          | none => none
          | some nc2 =>
            let mem4 := hset mem3 current_ptr ⟨nc2.payload, xor_ptrs nc2.xor_ptr new_node⟩
            match mem4 prev_ptr with
            | none => none
            | some np2 =>
              let mem5 := hset mem4 prev_ptr ⟨np2.payload, xor_ptrs np2.xor_ptr new_node⟩
              some { size := s.size + 1, start := s.start, endp := s.endp,
                     mem := mem5, next := s.next + 1 }

/-- The `XorLinkedList::remove_at(index)`: `None` result (state unchanged) when
`index >= size`; the first and last positions degenerate to
`pop_front`/`pop_back`; otherwise the target's far neighbour is decoded via
the predecessor witness, the target's address is XOR-patched out of both
neighbours' links and each neighbour's address patched into the other's
link, and the target node is deallocated. -/
def remove_at (s : XorLinkedList T) (index : Nat) :
    Option (Option T × XorLinkedList T) :=
  if index ≥ s.size then some (none, s)
  else if index = 0 then pop_front s
  else if index + 1 = s.size then pop_back s
  else
    match get_ptr_at_and_prev s index with
    | none => none
    | some (current_ptr, prev_ptr) =>
      match s.mem current_ptr with
      | none => none
      | some nc =>
        let next_ptr := xor_ptrs nc.xor_ptr prev_ptr
        match s.mem next_ptr with
        | none => none
        | some nn =>
          let mem1 := hset s.mem next_ptr ⟨nn.payload, xor_ptrs nn.xor_ptr current_ptr⟩
          match mem1 prev_ptr with
          | none => none
          | some np =>
            let mem2 := hset mem1 prev_ptr ⟨np.payload, xor_ptrs np.xor_ptr current_ptr⟩
            match mem2 next_ptr with
            | none => none
            | some nn2 =>
              let mem3 := hset mem2 next_ptr ⟨nn2.payload, xor_ptrs nn2.xor_ptr prev_ptr⟩
              match mem3 prev_ptr with
              | none => none
              | some np2 =>
                let mem4 := hset mem3 prev_ptr ⟨np2.payload, xor_ptrs np2.xor_ptr next_ptr⟩
                some (some nc.payload,
                  { size := s.size - 1, start := s.start, endp := s.endp,
                    mem := hdel mem4 current_ptr, next := s.next })

/-- The `XorLinkedList::reverse`: swap the `start` and `end` anchors; the heap is
untouched. -/
def reverse (s : XorLinkedList T) : XorLinkedList T :=
  { size := s.size, start := s.endp, endp := s.start, mem := s.mem, next := s.next }

/-- The borrowing iterators (`RefXorLinkedListIter` /
`MutRefXorLinkedListIter`): starting from `(prev, cur)`, repeatedly yield the
current payload and decode-and-advance until `cur` is null.  The iterator
itself is unbounded, so the model takes a fuel bound: `none` means either a
bad dereference or that the walk did not reach null within the fuel. -/
def iterFrom (mem : Mem T) : Nat → Nat → Nat → Option (List T)
  | 0, _, cur => if cur = 0 then some [] else none
  | fuel + 1, prev, cur =>
    if cur = 0 then some []
    else
      match mem cur with
      | none => none
      | some n => (iterFrom mem fuel cur (xor_ptrs n.xor_ptr prev)).map (n.payload :: ·)

/-- Full forward borrowing traversal (`iter` / `IntoIterator for &list`):
start at `start` with a null arrived-from witness.  `size` steps of fuel
suffice for any well-formed list. -/
def iterFwd (s : XorLinkedList T) : Option (List T) :=
  iterFrom s.mem s.size 0 s.start

/-- Full backward borrowing traversal (`reverse_iter`): start at `end`. -/
def iterBwd (s : XorLinkedList T) : Option (List T) :=
  iterFrom s.mem s.size 0 s.endp

/-- The `PartialEq for XorLinkedList`:
`self.len() == other.len() && self.iter().zip(other.iter()).all(|(a, b)| a == b)`.
`&&` short-circuits, so the traversals run only when the lengths agree. -/
def eqOp [DecidableEq T] (s1 s2 : XorLinkedList T) : Option Bool :=
  if s1.size = s2.size then
    match iterFwd s1, iterFwd s2 with
    | some l1, some l2 => some ((l1.zip l2).all fun p => decide (p.1 = p.2))
    | _, _ => none
  else some false

/-- The consuming forward iterator (`XorLinkedListIter`): `next` is
`pop_front`.  `drain fuel s` runs it to exhaustion, collecting the yielded
values; `none` if the fuel runs out before the iterator reports `Done` or a
pop hits a bad pointer. -/
def drain : Nat → XorLinkedList T → Option (List T)
  | 0, s =>
    match pop_front s with
    | some (none, _) => some []
    | _ => none
  | fuel + 1, s =>
    match pop_front s with
    | none => none
    | some (none, _) => some []
    | some (some v, s1) => (drain fuel s1).map (v :: ·)

/-- Push every element of `vs`, left to right, with `push_back`. -/
def pushAllBack (s : XorLinkedList T) (vs : List T) : Option (XorLinkedList T) :=
  match vs with
  | [] => some s
  | v :: rest =>
    match push_back s v with
    | none => none
    | some s1 => pushAllBack s1 rest

/-- Push every element of `vs`, left to right, with `push_front`. -/
def pushAllFront (s : XorLinkedList T) (vs : List T) : Option (XorLinkedList T) :=
  match vs with
  | [] => some s
  | v :: rest =>
    match push_front s v with
    | none => none
    | some s1 => pushAllFront s1 rest

/-- Call `pop_front` `n` times, collecting the popped values; `none` if a pop
yields no value (empty list) or hits a bad pointer. -/
def popFrontN : Nat → XorLinkedList T → Option (List T)
  | 0, _ => some []
  | n + 1, s =>
    match pop_front s with
    | some (some v, s1) => (popFrontN n s1).map (v :: ·)
    | _ => none

/-- Call `pop_back` `n` times, collecting the popped values. -/
def popBackN : Nat → XorLinkedList T → Option (List T)
  | 0, _ => some []
  | n + 1, s =>
    match pop_back s with
    | some (some v, s1) => (popBackN n s1).map (v :: ·)
    | _ => none

/-- One public mutating operation of the list API. -/
inductive Op (T : Type) where
  | pushFront (v : T)
  | pushBack (v : T)
  | popFront
  | popBack
  | insertAt (i : Nat) (v : T)
  | removeAt (i : Nat)

/-- Apply one operation, discarding any returned payload. -/
def applyOp (s : XorLinkedList T) : Op T → Option (XorLinkedList T)
  | Op.pushFront v => push_front s v
  | Op.pushBack v => push_back s v
  | Op.popFront =>
    match pop_front s with
    | none => none
    | some (_, s1) => some s1
  | Op.popBack =>
    match pop_back s with
    | none => none
    | some (_, s1) => some s1
  | Op.insertAt i v => insert_at s i v
  | Op.removeAt i =>
    match remove_at s i with
    | none => none
    | some (_, s1) => some s1

/-- Run a sequence of operations from a given state; `none` as soon as one
operation panics or goes wrong. -/
def runFrom (s : XorLinkedList T) : List (Op T) → Option (XorLinkedList T)
  | [] => some s
  | op :: rest =>
    match applyOp s op with
    | none => none
    | some s1 => runFrom s1 rest

/-- Run a sequence of operations starting from the empty list. -/
def runOps (T : Type) (ops : List (Op T)) : Option (XorLinkedList T) :=
  runFrom (new T) ops

/-! ## The representation invariant

A list state is well formed when its heap contains a chain of nodes, each
node's link field being the XOR of its two neighbours' addresses (null
contributing `0`).  `chainSeg m before pl after` says the fragment `pl` of
(address, payload) pairs is laid out in `m` as consecutive chain nodes whose
outside-left neighbour is `before` and outside-right neighbour is `after`. -/

/-- Address of the first node of a chain fragment, or `dflt` when empty. -/
def frontAddr (pl : List (Nat × T)) (dflt : Nat) : Nat :=
  match pl with
  | [] => dflt
  | (a, _) :: _ => a

/-- Address of the last node of a chain fragment, or `dflt` when empty. -/
def backAddr (pl : List (Nat × T)) (dflt : Nat) : Nat :=
  frontAddr pl.reverse dflt

/-- The `pl` is laid out in `m` as an XOR chain between `before` and `after`. -/
def chainSeg (m : Mem T) : Nat → List (Nat × T) → Nat → Prop
  | _, [], _ => True
  | before, (a, v) :: rest, after =>
    m a = some ⟨v, xor_ptrs before (frontAddr rest after)⟩ ∧ chainSeg m a rest after

/-- Well-formedness: the heap holds the chain `pl` from `start` to `endp`,
`size` matches, addresses are positive, pairwise distinct and below the
allocation counter. -/
structure WF (s : XorLinkedList T) (pl : List (Nat × T)) : Prop where
  chain : chainSeg s.mem 0 pl 0
  size_eq : s.size = pl.length
  start_eq : s.start = frontAddr pl 0
  end_eq : s.endp = backAddr pl 0
  nodup : pl.Pairwise fun p q => p.1 ≠ q.1
  pos : ∀ p ∈ pl, 0 < p.1
  bounded : ∀ p ∈ pl, p.1 < s.next
  next_pos : 0 < s.next

/-! ### XOR and heap lemmas -/

@[simp] theorem xor_ptrs_zero (a : Nat) : xor_ptrs a 0 = a := Nat.xor_zero a

@[simp] theorem zero_xor_ptrs (a : Nat) : xor_ptrs 0 a = a := Nat.zero_xor a

theorem xor_ptrs_comm (a b : Nat) : xor_ptrs a b = xor_ptrs b a := Nat.xor_comm a b

/-- Decoding: XORing a link with one stored neighbour yields the other. -/
@[simp] theorem xor_decode (b f : Nat) : xor_ptrs (xor_ptrs b f) b = f := by
  simp only [xor_ptrs]
  rw [Nat.xor_comm b f, Nat.xor_assoc, Nat.xor_self, Nat.xor_zero]

@[simp] theorem xor_decode' (b f : Nat) : xor_ptrs (xor_ptrs b f) f = b := by
  rw [xor_ptrs_comm b f, xor_decode]

@[simp] theorem hset_same (m : Mem T) (a : Nat) (n : XorNode T) : hset m a n a = some n := by
  simp [hset]

theorem hset_ne (m : Mem T) {a x : Nat} {n : XorNode T} (h : x ≠ a) :
    hset m a n x = m x := by
  simp [hset, h]

@[simp] theorem hdel_same (m : Mem T) (a : Nat) : hdel m a a = none := by
  simp [hdel]

theorem hdel_ne (m : Mem T) {a x : Nat} (h : x ≠ a) : hdel m a x = m x := by
  simp [hdel, h]

/-! ### Front/back address lemmas -/

@[simp] theorem frontAddr_nil (d : Nat) : frontAddr ([] : List (Nat × T)) d = d := rfl

@[simp] theorem frontAddr_cons (p : Nat × T) (l : List (Nat × T)) (d : Nat) :
    frontAddr (p :: l) d = p.1 := by
  obtain ⟨a, v⟩ := p; rfl

theorem frontAddr_append (l l2 : List (Nat × T)) (d : Nat) :
    frontAddr (l ++ l2) d = frontAddr l (frontAddr l2 d) := by
  cases l with
  | nil => rfl
  | cons p t => simp

@[simp] theorem backAddr_nil (d : Nat) : backAddr ([] : List (Nat × T)) d = d := rfl

theorem backAddr_append (l l2 : List (Nat × T)) (d : Nat) :
    backAddr (l ++ l2) d = backAddr l2 (backAddr l d) := by
  simp [backAddr, List.reverse_append, frontAddr_append]

@[simp] theorem backAddr_cons (p : Nat × T) (l : List (Nat × T)) (d : Nat) :
    backAddr (p :: l) d = backAddr l p.1 := by
  simp [backAddr, List.reverse_cons, frontAddr_append]

@[simp] theorem backAddr_singleton (p : Nat × T) (d : Nat) : backAddr [p] d = p.1 := by
  simp [backAddr]

@[simp] theorem frontAddr_reverse (l : List (Nat × T)) (d : Nat) :
    frontAddr l.reverse d = backAddr l d := rfl

@[simp] theorem backAddr_reverse (l : List (Nat × T)) (d : Nat) :
    backAddr l.reverse d = frontAddr l d := by
  simp [backAddr]

/-! ### Chain segment lemmas -/

@[simp] theorem chainSeg_nil (m : Mem T) (b a : Nat) : chainSeg m b [] a := trivial

theorem chainSeg_cons {m : Mem T} {a₀ : Nat} {v₀ : T} {rest : List (Nat × T)} {b a : Nat} :
    chainSeg m b ((a₀, v₀) :: rest) a ↔
      m a₀ = some ⟨v₀, xor_ptrs b (frontAddr rest a)⟩ ∧ chainSeg m a₀ rest a :=
  Iff.rfl

theorem chainSeg_append {m : Mem T} {xs ys : List (Nat × T)} {b a : Nat} :
    chainSeg m b (xs ++ ys) a ↔
      chainSeg m b xs (frontAddr ys a) ∧ chainSeg m (backAddr xs b) ys a := by
  induction xs generalizing b with
  | nil => simp
  | cons p t ih =>
    obtain ⟨a₀, v₀⟩ := p
    simp only [List.cons_append, chainSeg_cons, frontAddr_append, ih, backAddr_cons]
    tauto

/-- A chain is insensitive to heap changes outside its own addresses. -/
theorem chainSeg_frame {m m' : Mem T} {pl : List (Nat × T)} {b a : Nat}
    (hm : ∀ p ∈ pl, m' p.1 = m p.1) (h : chainSeg m b pl a) : chainSeg m' b pl a := by
  induction pl generalizing b with
  | nil => trivial
  | cons p t ih =>
    obtain ⟨a₀, v₀⟩ := p
    obtain ⟨h1, h2⟩ := h
    exact ⟨by rw [hm ⟨a₀, v₀⟩ (by simp)]; exact h1,
      ih (fun q hq => hm q (List.mem_cons_of_mem _ hq)) h2⟩

/-- The XOR encoding is direction-agnostic: a chain read backwards is again a
chain, with the outside neighbours swapped. -/
theorem chainSeg_reverse {m : Mem T} {pl : List (Nat × T)} {b a : Nat}
    (h : chainSeg m b pl a) : chainSeg m a pl.reverse b := by
  induction pl generalizing b with
  | nil => trivial
  | cons p t ih =>
    obtain ⟨a₀, v₀⟩ := p
    obtain ⟨h1, h2⟩ := h
    rw [List.reverse_cons, chainSeg_append]
    refine ⟨by simpa using ih h2, ?_, trivial⟩
    simp only [backAddr_reverse, frontAddr_nil]
    rw [xor_ptrs_comm] at h1
    simpa using h1

/-- Walking a whole chain fragment lands on the outside-right neighbour, with
the fragment's last node as the arrived-from witness. -/
theorem walkSteps_chain {m : Mem T} {pl : List (Nat × T)} {b a : Nat}
    (h : chainSeg m b pl a) :
    walkSteps m pl.length b (frontAddr pl a) = some (a, backAddr pl b) := by
  induction pl generalizing b with
  | nil => simp [walkSteps]
  | cons p t ih =>
    obtain ⟨a₀, v₀⟩ := p
    obtain ⟨h1, h2⟩ := h
    simp only [List.length_cons, frontAddr_cons, walkSteps, h1, xor_decode, backAddr_cons]
    exact ih h2

/-- Traversing a whole chain with enough fuel yields exactly its payloads. -/
theorem iterFrom_chain {m : Mem T} {pl : List (Nat × T)} {b : Nat} {fuel : Nat}
    (h : chainSeg m b pl 0) (hpos : ∀ p ∈ pl, 0 < p.1) (hfuel : pl.length ≤ fuel) :
    iterFrom m fuel b (frontAddr pl 0) = some (pl.map Prod.snd) := by
  induction pl generalizing b fuel with
  | nil =>
    cases fuel with
    | zero => simp [iterFrom]
    | succ f => simp [iterFrom]
  | cons p t ih =>
    obtain ⟨a₀, v₀⟩ := p
    obtain ⟨h1, h2⟩ := h
    rw [List.length_cons] at hfuel
    cases fuel with
    | zero => exact absurd hfuel (by omega)
    | succ f =>
      have h0 : 0 < a₀ := hpos ⟨a₀, v₀⟩ (by simp)
      have ha₀ : a₀ ≠ 0 := by omega
      have hfl : t.length ≤ f := by omega
      simp only [frontAddr_cons, iterFrom, if_neg ha₀, h1, xor_decode]
      rw [ih h2 (fun q hq => hpos q (List.mem_cons_of_mem _ hq)) hfl]
      rfl

/-- The back address of a nonempty fragment is one of its node addresses. -/
theorem backAddr_mem {pl : List (Nat × T)} (h : pl ≠ []) (d : Nat) :
    ∃ p ∈ pl, backAddr pl d = p.1 := by
  rcases List.eq_nil_or_concat pl with rfl | ⟨xs, x, rfl⟩
  · exact absurd rfl h
  · exact ⟨x, by simp, by simp [backAddr_append]⟩

/-- The back address of a nonempty fragment does not depend on the default. -/
theorem backAddr_ne_nil {pl : List (Nat × T)} (h : pl ≠ []) (d d' : Nat) :
    backAddr pl d = backAddr pl d' := by
  rcases List.eq_nil_or_concat pl with rfl | ⟨xs, x, rfl⟩
  · exact absurd rfl h
  · simp [backAddr_append]

/-! ### Step lemmas: closed forms of each operation's branches -/

theorem push_end_empty (e1 : Nat) (v : T) (mem : Mem T) (next : Nat) :
    push_end e1 0 v mem next =
      some (next, next, hset mem next ⟨v, 0⟩, next + 1) := by
  unfold push_end
  simp

theorem push_end_nonempty (e1 e2 : Nat) (v : T) (mem : Mem T) (next : Nat)
    (h2 : e2 ≠ 0) (n2 : XorNode T) (hm : hset mem next ⟨v, 0⟩ e2 = some n2) :
    push_end e1 e2 v mem next =
      some (e1, next,
        hset (hset (hset mem next ⟨v, 0⟩) e2 ⟨n2.payload, xor_ptrs n2.xor_ptr next⟩)
          next ⟨v, e2⟩, next + 1) := by
  unfold push_end
  simp only [if_neg h2, hm]

theorem pop_end_null (size : Nat) (e2 : Nat) (mem : Mem T) :
    pop_end size 0 e2 mem = some (none, size, 0, e2, mem) := by
  unfold pop_end
  simp

theorem pop_end_single (size : Nat) (e1 : Nat) (mem : Mem T) (h1 : e1 ≠ 0)
    (n : XorNode T) (hm : mem e1 = some n) :
    pop_end size e1 e1 mem = some (some n.payload, size - 1, 0, 0, hdel mem e1) := by
  unfold pop_end
  simp only [if_neg h1, hm]
  simp

theorem pop_end_many (size : Nat) (e1 e2 : Nat) (mem : Mem T) (h1 : e1 ≠ 0)
    (h12 : e1 ≠ e2) (n : XorNode T) (hm : mem e1 = some n) (n1 : XorNode T)
    (hm1 : mem n.xor_ptr = some n1) :
    pop_end size e1 e2 mem =
      some (some n.payload, size - 1, n.xor_ptr, e2,
        hdel (hset mem n.xor_ptr ⟨n1.payload, xor_ptrs n1.xor_ptr e1⟩) e1) := by
  unfold pop_end
  simp only [if_neg h1, hm, if_neg h12, hm1]

/-! ### Symmetry: every operation on one end is the mirrored operation on the
reversed list -/

theorem reverse_reverse (s : XorLinkedList T) : reverse (reverse s) = s := rfl

theorem push_front_eq_reverse (s : XorLinkedList T) (v : T) :
    push_front s v = (push_back (reverse s) v).map reverse := by
  unfold push_front push_back reverse
  cases push_end s.endp s.start v s.mem s.next with
  | none => rfl
  | some r => rfl

theorem pop_back_eq_reverse (s : XorLinkedList T) :
    pop_back s = (pop_front (reverse s)).map (Prod.map id reverse) := by
  unfold pop_back pop_front reverse
  cases pop_end s.size s.endp s.start s.mem with
  | none => rfl
  | some r => rfl

/-- Reversing the anchors reverses the represented sequence; the heap, the
size and the allocator are untouched. -/
theorem reverse_WF {s : XorLinkedList T} {pl : List (Nat × T)} (h : WF s pl) :
    WF (reverse s) pl.reverse := by
  obtain ⟨hc, hsz, hst, hen, hnd, hpos, hbd, hnx⟩ := h
  refine ⟨chainSeg_reverse hc, by simpa using hsz, by simpa using hen,
    by simpa using hst, ?_, ?_, ?_, hnx⟩
  · rw [List.pairwise_reverse]
    exact hnd.imp fun hij => Ne.symm hij
  · intro p hp
    exact hpos p (List.mem_reverse.mp hp)
  · intro p hp
    exact hbd p (List.mem_reverse.mp hp)

/-! ### Push specifications -/

/-- The `WF` for the empty list. -/
theorem WF_new (T : Type) : WF (new T) [] := by
  refine ⟨trivial, rfl, rfl, rfl, by simp, by simp, by simp, by simp [new]⟩

/-- The `push_back` succeeds on a well-formed list and appends the new node (at
the fresh address) at the back. -/
theorem push_back_spec {s : XorLinkedList T} {pl : List (Nat × T)}
    (h : WF s pl) (v : T) :
    ∃ s', push_back s v = some s' ∧ WF s' (pl ++ [(s.next, v)]) ∧
      s'.next = s.next + 1 := by
  obtain ⟨hc, hsz, hst, hen, hnd, hpos, hbd, hnx⟩ := h
  rcases List.eq_nil_or_concat pl with rfl | ⟨xs, x, rfl⟩
  · have hen0 : s.endp = 0 := by simpa using hen
    refine ⟨_, by rw [push_back, hen0, push_end_empty], ?_, rfl⟩
    refine ⟨?_, by simpa using hsz, rfl, by simp, by simp, ?_, ?_, by simp⟩
    · exact ⟨by simp, trivial⟩
    · intro p hp
      simp only [List.nil_append, List.mem_singleton] at hp
      subst hp
      exact hnx
    · intro p hp
      simp only [List.nil_append, List.mem_singleton] at hp
      subst hp
      simp
  · -- nonempty list: the old back node is `x`
    simp only [List.concat_eq_append] at hc hsz hst hen hnd hpos hbd ⊢
    have hx_pos : 0 < x.1 := hpos x (by simp)
    have hx_lt : x.1 < s.next := hbd x (by simp)
    have hx_ne : x.1 ≠ 0 := by omega
    have hxs_ne : x.1 ≠ s.next := Nat.ne_of_lt hx_lt
    have hend : s.endp = x.1 := by rw [hen, backAddr_append, backAddr_singleton]
    obtain ⟨hcxs, hcx⟩ := chainSeg_append.mp hc
    have hxmem : s.mem x.1 = some ⟨x.2, backAddr xs 0⟩ := by
      obtain ⟨hx1, -⟩ := hcx
      simpa using hx1
    have hmem1 : hset s.mem s.next ⟨v, 0⟩ x.1 = some ⟨x.2, backAddr xs 0⟩ := by
      rw [hset_ne _ hxs_ne]
      exact hxmem
    refine ⟨_, by rw [push_back, hend, push_end_nonempty s.start x.1 v s.mem s.next hx_ne _ hmem1], ?_, rfl⟩
    set mem3 : Mem T :=
      hset (hset (hset s.mem s.next ⟨v, 0⟩) x.1 ⟨x.2, xor_ptrs (backAddr xs 0) s.next⟩)
        s.next ⟨v, x.1⟩ with hmem3
    have hfresh : ∀ p ∈ xs ++ [x], p.1 ≠ s.next := fun p hp => Nat.ne_of_lt (hbd p hp)
    have hxs_x : ∀ p ∈ xs, p.1 ≠ x.1 := by
      have := List.pairwise_append.mp hnd
      intro p hp
      exact this.2.2 p hp x (by simp)
    have hmem3_old : ∀ p ∈ xs, mem3 p.1 = s.mem p.1 := by
      intro p hp
      rw [hmem3, hset_ne _ (hfresh p (by simp [hp])), hset_ne _ (hxs_x p hp),
        hset_ne _ (hfresh p (by simp [hp]))]
    have hmem3_x : mem3 x.1 = some ⟨x.2, xor_ptrs (backAddr xs 0) s.next⟩ := by
      rw [hmem3, hset_ne _ hxs_ne, hset_same]
    have hmem3_new : mem3 s.next = some ⟨v, x.1⟩ := by
      rw [hmem3, hset_same]
    refine ⟨?_, ?_, ?_, ?_, ?_, ?_, ?_, by simp⟩
    · -- the new chain
      rw [List.append_assoc, chainSeg_append]
      constructor
      · refine chainSeg_frame hmem3_old ?_
        have : frontAddr ([x] ++ [(s.next, v)]) 0 = frontAddr [x] 0 := by simp
        rw [List.singleton_append, frontAddr_cons]
        simpa using hcxs
      · rw [List.singleton_append, chainSeg_cons, chainSeg_cons]
        refine ⟨by simpa using hmem3_x, by simpa using hmem3_new, trivial⟩
    · simp [hsz]
    · rw [hst]
      cases xs with
      | nil => simp
      | cons q t => simp
    · simp [backAddr_append]
    · rw [List.append_assoc, List.pairwise_append]
      refine ⟨List.pairwise_append.mp hnd |>.1, ?_, ?_⟩
      · simp only [List.singleton_append, List.pairwise_cons]
        refine ⟨?_, by simp⟩
        intro q hq
        have hq' : q = (s.next, v) := by simpa using hq
        subst hq'
        exact Nat.ne_of_lt hx_lt
      · intro p hp q hq
        have hq' : q = x ∨ q = (s.next, v) := by simpa using hq
        rcases hq' with rfl | rfl
        · exact hxs_x p hp
        · exact Nat.ne_of_lt (hbd p (by simp [hp]))
    · intro p hp
      have hp' : p ∈ xs ∨ p = x ∨ p = (s.next, v) := by simpa using hp
      rcases hp' with hp' | rfl | rfl
      · exact hpos p (by simp [hp'])
      · exact hx_pos
      · exact hnx
    · intro p hp
      have hp' : p ∈ xs ∨ p = x ∨ p = (s.next, v) := by simpa using hp
      rcases hp' with hp' | rfl | rfl
      · exact Nat.lt_succ_of_lt (hbd p (by simp [hp']))
      · exact Nat.lt_succ_of_lt hx_lt
      · exact Nat.lt_succ_self _

/-- The `push_front` succeeds on a well-formed list and prepends the new node. -/
theorem push_front_spec {s : XorLinkedList T} {pl : List (Nat × T)}
    (h : WF s pl) (v : T) :
    ∃ s', push_front s v = some s' ∧ WF s' ((s.next, v) :: pl) ∧
      s'.next = s.next + 1 := by
  obtain ⟨s', hs', hwf, hnx⟩ := push_back_spec (reverse_WF h) v
  refine ⟨reverse s', ?_, ?_, hnx⟩
  · rw [push_front_eq_reverse, hs']
    rfl
  · have := reverse_WF hwf
    simpa using this

/-! ### Pop specifications -/

/-- Popping the front of a list whose `start` anchor is null returns `None`
and leaves the state untouched. -/
theorem pop_front_nil {s : XorLinkedList T} (h0 : s.start = 0) :
    pop_front s = some (none, s) := by
  cases s with
  | mk size start endp mem next =>
    simp only at h0
    subst h0
    rw [pop_front, pop_end_null]

/-- Popping the back of a list whose `end` anchor is null returns `None` and
leaves the state untouched. -/
theorem pop_back_nil {s : XorLinkedList T} (h0 : s.endp = 0) :
    pop_back s = some (none, s) := by
  cases s with
  | mk size start endp mem next =>
    simp only at h0
    subst h0
    rw [pop_back, pop_end_null]

/-- The `pop_front` on a well-formed nonempty list returns the head payload and
leaves a well-formed list of the remaining nodes. -/
theorem pop_front_spec {s : XorLinkedList T} {a : Nat} {v : T}
    {rest : List (Nat × T)} (h : WF s ((a, v) :: rest)) :
    ∃ s', pop_front s = some (some v, s') ∧ WF s' rest ∧ s'.next = s.next := by
  obtain ⟨hc, hsz, hst, hen, hnd, hpos, hbd, hnx⟩ := h
  have ha_pos : 0 < a := hpos (a, v) (by simp)
  have ha_ne : a ≠ 0 := by omega
  obtain ⟨hmema, hcrest⟩ := hc
  have hst' : s.start = a := by simpa using hst
  rw [List.pairwise_cons] at hnd
  obtain ⟨hnd_head, hnd_rest⟩ := hnd
  cases rest with
  | nil =>
    have hen' : s.endp = a := by simpa using hen
    have hmema' : s.mem a = some ⟨v, 0⟩ := by simpa using hmema
    refine ⟨⟨s.size - 1, 0, 0, hdel s.mem a, s.next⟩, ?_, ?_, rfl⟩
    · rw [pop_front, hst', hen', pop_end_single s.size a s.mem ha_ne _ hmema']
    · have hsz1 : s.size = 1 := by simpa using hsz
      exact ⟨trivial, by simp [hsz1], rfl, rfl, by simp, by simp, by simp, hnx⟩
  | cons q t =>
    have hmema' : s.mem a = some ⟨v, q.1⟩ := by simpa using hmema
    have hq_mem_aux : s.mem q.1 = some ⟨q.2, xor_ptrs a (frontAddr t 0)⟩ := by
      obtain ⟨hq1, -⟩ := hcrest
      simpa using hq1
    have hne_a : ∀ p ∈ q :: t, a ≠ p.1 := by
      intro p hp
      simpa using hnd_head p hp
    have hend_ne : a ≠ s.endp := by
      obtain ⟨p, hp, hbk⟩ := backAddr_mem (List.cons_ne_nil q t) a
      rw [hen, backAddr_cons]
      simp only [frontAddr_cons] at hbk ⊢
      rw [show backAddr (q :: t) (a, v).1 = p.1 from hbk]
      exact hne_a p hp
    have hstep := pop_end_many s.size a s.endp s.mem ha_ne hend_ne _ hmema' _ hq_mem_aux
    simp only [xor_decode] at hstep
    refine ⟨⟨s.size - 1, q.1, s.endp,
      hdel (hset s.mem q.1 ⟨q.2, frontAddr t 0⟩) a, s.next⟩, ?_, ?_, rfl⟩
    · rw [pop_front, hst', hstep]
    · have hq_ne_a : q.1 ≠ a := fun hqe => hne_a q (by simp) hqe.symm
      have ht_ne_a : ∀ p ∈ t, p.1 ≠ a := fun p hp hpe =>
        hne_a p (by simp [hp]) hpe.symm
      rw [List.pairwise_cons] at hnd_rest
      obtain ⟨hq_head, hnd_t⟩ := hnd_rest
      refine ⟨?_, ?_, by simp, ?_, ?_, ?_, ?_, hnx⟩
      · refine ⟨?_, ?_⟩
        · simp only at hq_ne_a ⊢
          rw [hdel_ne _ hq_ne_a, hset_same]
          simp
        · refine chainSeg_frame ?_ hcrest.2
          intro p hp
          show hdel (hset s.mem q.1 ⟨q.2, frontAddr t 0⟩) a p.1 = s.mem p.1
          rw [hdel_ne _ (ht_ne_a p hp), hset_ne _ (hq_head p hp).symm]
      · simp only [List.length_cons] at hsz ⊢
        omega
      · rw [hen]
        simp [backAddr_cons]
      · exact List.pairwise_cons.mpr ⟨hq_head, hnd_t⟩
      · intro p hp
        exact hpos p (by simp [hp])
      · intro p hp
        exact hbd p (by simp [hp])

/-- The `pop_back` on a well-formed nonempty list returns the last payload and
leaves a well-formed list of the remaining nodes. -/
theorem pop_back_spec {s : XorLinkedList T} {xs : List (Nat × T)} {x : Nat × T}
    (h : WF s (xs ++ [x])) :
    ∃ s', pop_back s = some (some x.2, s') ∧ WF s' xs ∧ s'.next = s.next := by
  have hrev : WF (reverse s) (x :: xs.reverse) := by
    have := reverse_WF h
    simpa using this
  obtain ⟨t, ht, hwf, hnx⟩ :=
    @pop_front_spec T (reverse s) x.1 x.2 xs.reverse (by simpa using hrev)
  refine ⟨reverse t, ?_, ?_, hnx⟩
  · rw [pop_back_eq_reverse, ht]
    rfl
  · have := reverse_WF hwf
    simpa using this

/-! ### Walk and indexed-access specifications -/

/-- Walking as many steps as a prefix is long lands on the first node after
the prefix, with the prefix's last node as witness. -/
theorem walkSteps_split {m : Mem T} {xs ys : List (Nat × T)} {b a : Nat}
    (hc : chainSeg m b (xs ++ ys) a) :
    walkSteps m xs.length b (frontAddr (xs ++ ys) a) =
      some (frontAddr ys a, backAddr xs b) := by
  obtain ⟨h1, h2⟩ := chainSeg_append.mp hc
  rw [frontAddr_append]
  exact walkSteps_chain h1

/-- The `k` forward steps from the head of a chain. -/
theorem walk_from_start {m : Mem T} {pl : List (Nat × T)}
    (hc : chainSeg m 0 pl 0) {k : Nat} (hk : k ≤ pl.length) :
    walkSteps m k 0 (frontAddr pl 0) =
      some (frontAddr (pl.drop k) 0, backAddr (pl.take k) 0) := by
  have hsplit : pl = pl.take k ++ pl.drop k := (List.take_append_drop k pl).symm
  rw [hsplit] at hc
  have hws := walkSteps_split hc
  rw [List.length_take, Nat.min_eq_left hk, ← hsplit] at hws
  exact hws

/-- The `k` backward steps from the tail of a chain: the XOR encoding is
direction-agnostic, so this is a forward walk of the reversed chain. -/
theorem walk_from_end {m : Mem T} {pl : List (Nat × T)}
    (hc : chainSeg m 0 pl 0) {k : Nat} (hk : k ≤ pl.length) :
    walkSteps m k 0 (backAddr pl 0) =
      some (backAddr (pl.take (pl.length - k)) 0,
        frontAddr (pl.drop (pl.length - k)) 0) := by
  have hc' := chainSeg_reverse hc
  have hk' : k ≤ pl.reverse.length := by simpa using hk
  have hws := walk_from_start hc' hk'
  rw [List.drop_reverse, List.take_reverse] at hws
  simpa using hws

/-- The first address of `pl.drop i` is the address at index `i`. -/
theorem frontAddr_drop {pl : List (Nat × T)} {i : Nat} (h : i < pl.length)
    (d : Nat) : frontAddr (pl.drop i) d = (pl.get ⟨i, h⟩).1 := by
  rw [List.drop_eq_getElem_cons h, frontAddr_cons, List.get_eq_getElem]

/-- The last address of `pl.take (i + 1)` is the address at index `i`. -/
theorem backAddr_take_succ {pl : List (Nat × T)} {i : Nat} (h : i < pl.length)
    (d : Nat) : backAddr (pl.take (i + 1)) d = (pl.get ⟨i, h⟩).1 := by
  rw [List.take_succ, List.getElem?_eq_getElem h, Option.toList_some,
    backAddr_append, backAddr_singleton, List.get_eq_getElem]

/-- The heap cell of the node at index `i`: payload at `i`, link the XOR of
the two neighbouring addresses. -/
theorem chain_mem_lookup {m : Mem T} {pl : List (Nat × T)}
    (hc : chainSeg m 0 pl 0) {i : Nat} (hi : i < pl.length) :
    m (pl.get ⟨i, hi⟩).1 = some ⟨(pl.get ⟨i, hi⟩).2,
      xor_ptrs (backAddr (pl.take i) 0) (frontAddr (pl.drop (i + 1)) 0)⟩ := by
  have hsplit : pl = pl.take i ++ pl.drop i := (List.take_append_drop i pl).symm
  rw [hsplit] at hc
  obtain ⟨-, h2⟩ := chainSeg_append.mp hc
  rw [List.drop_eq_getElem_cons hi] at h2
  obtain ⟨hx, -⟩ := h2
  have hfr : pl.drop (i + 1) = (pl[i] :: pl.drop (i + 1)).drop 1 := by simp
  rw [List.get_eq_getElem]
  simpa using hx

/-- The `get_ptr_at` returns the address of the node at index `i`, whichever end
the walk starts from. -/
theorem get_ptr_at_spec {s : XorLinkedList T} {pl : List (Nat × T)}
    (h : WF s pl) {i : Nat} (hi : i < pl.length) :
    get_ptr_at s i = some (pl.get ⟨i, hi⟩).1 := by
  obtain ⟨hc, hsz, hst, hen, -, -, -, -⟩ := h
  by_cases hb : i > s.size / 2
  · -- backward walk of `size - index - 1` steps from the tail
    have hk : s.size - i - 1 ≤ pl.length := by omega
    have hnk : pl.length - (s.size - i - 1) = i + 1 := by omega
    simp only [get_ptr_at, if_pos hb]
    rw [hen, walk_from_end hc hk, hnk]
    simp [backAddr_take_succ hi]
  · have hk : i ≤ pl.length := Nat.le_of_lt hi
    simp only [get_ptr_at, if_neg hb]
    rw [hst, walk_from_start hc hk]
    simp [frontAddr_drop hi]

/-- The `get` on a well-formed list returns the payload at every valid index. -/
theorem get_spec {s : XorLinkedList T} {pl : List (Nat × T)} (h : WF s pl)
    {i : Nat} (hi : i < pl.length) :
    get s i = some (some (pl.get ⟨i, hi⟩).2) := by
  have hlt : ¬ i ≥ s.size := by
    rw [h.size_eq]
    omega
  rw [get, if_neg hlt, get_ptr_at_spec h hi]
  have hlook := chain_mem_lookup h.chain hi
  rw [List.get_eq_getElem] at hlook
  simp only [List.get_eq_getElem]
  rw [hlook]

/-- The `get` is `None` exactly on out-of-range indices. -/
theorem get_oob {s : XorLinkedList T} (i : Nat) (hi : i ≥ s.size) :
    get s i = some none := by
  rw [get, if_pos hi]

/-- The `get_ptr_at_and_prev` returns the addresses at `index` and `index - 1`
(as the pair `(current, previous)`), whichever end the walk starts from. -/
theorem get_ptr_at_and_prev_spec {s : XorLinkedList T} {pl : List (Nat × T)}
    (h : WF s pl) {i : Nat} (hi : i ≤ pl.length) :
    get_ptr_at_and_prev s i =
      some (frontAddr (pl.drop i) 0, backAddr (pl.take i) 0) := by
  obtain ⟨hc, hsz, hst, hen, -, -, -, -⟩ := h
  by_cases hb : i > s.size / 2
  · have hk : s.size - i ≤ pl.length := by omega
    have hnk : pl.length - (s.size - i) = i := by omega
    simp only [get_ptr_at_and_prev, if_pos hb]
    rw [hen, walk_from_end hc hk, hnk]
  · simp only [get_ptr_at_and_prev, if_neg hb]
    rw [hst, walk_from_start hc (by omega)]

/-! ### Insert specification -/

/-- The `insert_at` succeeds on every index up to the size and splices the new
node (at the fresh address) in at position `i`. -/
theorem insert_at_spec {s : XorLinkedList T} {pl : List (Nat × T)} (h : WF s pl)
    {i : Nat} (hi : i ≤ pl.length) (v : T) :
    ∃ s', insert_at s i v = some s' ∧
      WF s' (pl.take i ++ (s.next, v) :: pl.drop i) ∧ s'.next = s.next + 1 := by
  have hsz := h.size_eq
  by_cases hi0 : i = 0
  · subst hi0
    obtain ⟨s', hs', hwf, hnx⟩ := push_front_spec h v
    refine ⟨s', ?_, by simpa using hwf, hnx⟩
    rw [insert_at, if_neg (by omega), if_pos rfl]
    exact hs'
  by_cases hin : i = pl.length
  · obtain ⟨s', hs', hwf, hnx⟩ := push_back_spec h v
    refine ⟨s', ?_, ?_, hnx⟩
    · rw [insert_at, if_neg (by omega), if_neg hi0, if_pos (by omega)]
      exact hs'
    · subst hin
      simpa using hwf
  -- middle case: 0 < i < length
  have hi2 : i < pl.length := by omega
  have hi1 : 0 < i := by omega
  have him1 : i - 1 < pl.length := by omega
  have hieq : i - 1 + 1 = i := by omega
  set pv := pl.get ⟨i - 1, him1⟩ with hpv
  set qv := pl.get ⟨i, hi2⟩ with hqv
  set A := pl.take (i - 1) with hA
  set D := pl.drop (i + 1) with hD
  have htake : pl.take i = A ++ [pv] := by
    conv_lhs => rw [← hieq]
    rw [List.take_succ, List.getElem?_eq_getElem him1]
    simp [hA, hpv]
  have hdrop : pl.drop i = qv :: D := by
    rw [List.drop_eq_getElem_cons hi2, hqv, hD, List.get_eq_getElem]
  have hpl : pl = (A ++ [pv]) ++ qv :: D := by
    conv_lhs => rw [← List.take_append_drop i pl, htake, hdrop]
  set fD := frontAddr D 0 with hfD
  set bA := backAddr A 0 with hbA
  -- chain decomposition
  have hc0 := h.chain
  rw [hpl, chainSeg_append] at hc0
  obtain ⟨hcAp, hcQD⟩ := hc0
  rw [chainSeg_append] at hcAp
  obtain ⟨hcA, hcP⟩ := hcAp
  have hcA : chainSeg s.mem 0 A pv.1 := by simpa using hcA
  have hpmem : s.mem pv.1 = some ⟨pv.2, xor_ptrs bA qv.1⟩ := by
    obtain ⟨hp1, -⟩ := hcP
    simpa [hbA] using hp1
  rw [backAddr_append, backAddr_singleton] at hcQD
  obtain ⟨hqmem0, hcD⟩ := hcQD
  have hqmem : s.mem qv.1 = some ⟨qv.2, xor_ptrs pv.1 fD⟩ := by
    simpa [hfD] using hqmem0
  -- distinctness
  have hnd0 := h.nodup
  rw [hpl, List.pairwise_append] at hnd0
  obtain ⟨hndAp, hndQD, hcross⟩ := hnd0
  have hndAp2 := hndAp
  rw [List.pairwise_append] at hndAp2
  obtain ⟨hndA, -, hcrossA⟩ := hndAp2
  have hndQD2 := hndQD
  rw [List.pairwise_cons] at hndQD2
  obtain ⟨hndQ, hndD⟩ := hndQD2
  have hA_sub : ∀ r ∈ A, r ∈ pl := fun r hr => by rw [hpl]; simp [hr]
  have hD_sub : ∀ r ∈ D, r ∈ pl := fun r hr => by rw [hpl]; simp [hr]
  have hpv_mem : pv ∈ pl := by rw [hpl]; simp
  have hqv_mem : qv ∈ pl := by rw [hpl]; simp
  have hfresh : ∀ r ∈ pl, r.1 ≠ s.next := fun r hr => Nat.ne_of_lt (h.bounded r hr)
  have hpq : pv.1 ≠ qv.1 := hcross pv (by simp) qv (by simp)
  have hqfresh : qv.1 ≠ s.next := hfresh qv hqv_mem
  have hpfresh : pv.1 ≠ s.next := hfresh pv hpv_mem
  have hAp : ∀ r ∈ A, r.1 ≠ pv.1 := fun r hr => hcrossA r hr pv (by simp)
  have hAq : ∀ r ∈ A, r.1 ≠ qv.1 := fun r hr => hcross r (by simp [hr]) qv (by simp)
  have hAnx : ∀ r ∈ A, r.1 ≠ s.next := fun r hr => hfresh r (hA_sub r hr)
  have hDp : ∀ r ∈ D, r.1 ≠ pv.1 := fun r hr =>
    (hcross pv (by simp) r (by simp [hr])).symm
  have hDq : ∀ r ∈ D, r.1 ≠ qv.1 := fun r hr => (hndQ r hr).symm
  have hDnx : ∀ r ∈ D, r.1 ≠ s.next := fun r hr => hfresh r (hD_sub r hr)
  -- locate the splice point
  have hfq : frontAddr (pl.drop i) 0 = qv.1 := by rw [hdrop, frontAddr_cons]
  have hbp : backAddr (pl.take i) 0 = pv.1 := by
    rw [htake, backAddr_append, backAddr_singleton]
  have hgp : get_ptr_at_and_prev s i = some (qv.1, pv.1) := by
    rw [get_ptr_at_and_prev_spec h (by omega), hfq, hbp]
  -- the successive heap reads made by insert_at
  have hr1 : hset s.mem qv.1 ⟨qv.2, fD⟩ pv.1 = some ⟨pv.2, xor_ptrs bA qv.1⟩ := by
    rw [hset_ne _ hpq]
    exact hpmem
  have hr2 : hset (hset (hset s.mem qv.1 ⟨qv.2, fD⟩) pv.1 ⟨pv.2, bA⟩)
      s.next ⟨v, xor_ptrs qv.1 pv.1⟩ qv.1 = some ⟨qv.2, fD⟩ := by
    rw [hset_ne _ hqfresh, hset_ne _ (Ne.symm hpq), hset_same]
  have hr3 : hset (hset (hset (hset s.mem qv.1 ⟨qv.2, fD⟩) pv.1 ⟨pv.2, bA⟩)
      s.next ⟨v, xor_ptrs qv.1 pv.1⟩) qv.1 ⟨qv.2, xor_ptrs fD s.next⟩ pv.1 =
      some ⟨pv.2, bA⟩ := by
    rw [hset_ne _ hpq, hset_ne _ hpfresh, hset_same]
  have heval : insert_at s i v = some ⟨s.size + 1, s.start, s.endp,
      hset (hset (hset (hset (hset s.mem qv.1 ⟨qv.2, fD⟩) pv.1 ⟨pv.2, bA⟩)
        s.next ⟨v, xor_ptrs qv.1 pv.1⟩) qv.1 ⟨qv.2, xor_ptrs fD s.next⟩)
        pv.1 ⟨pv.2, xor_ptrs bA s.next⟩, s.next + 1⟩ := by
    rw [insert_at, if_neg (by omega), if_neg hi0, if_neg (by omega), hgp]
    simp only [hqmem, xor_decode, xor_decode', hr1, hr2, hr3]
  refine ⟨_, heval, ?_, rfl⟩
  set m5 : Mem T :=
    hset (hset (hset (hset (hset s.mem qv.1 ⟨qv.2, fD⟩) pv.1 ⟨pv.2, bA⟩)
      s.next ⟨v, xor_ptrs qv.1 pv.1⟩) qv.1 ⟨qv.2, xor_ptrs fD s.next⟩)
      pv.1 ⟨pv.2, xor_ptrs bA s.next⟩ with hm5
  -- reads of the final heap
  have hm5p : m5 pv.1 = some ⟨pv.2, xor_ptrs bA s.next⟩ := by
    rw [hm5, hset_same]
  have hm5q : m5 qv.1 = some ⟨qv.2, xor_ptrs fD s.next⟩ := by
    rw [hm5, hset_ne _ (Ne.symm hpq), hset_same]
  have hm5new : m5 s.next = some ⟨v, xor_ptrs qv.1 pv.1⟩ := by
    rw [hm5, hset_ne _ (Ne.symm hpfresh), hset_ne _ (Ne.symm hqfresh), hset_same]
  have hm5A : ∀ r ∈ A, m5 r.1 = s.mem r.1 := by
    intro r hr
    rw [hm5, hset_ne _ (hAp r hr), hset_ne _ (hAq r hr), hset_ne _ (hAnx r hr),
      hset_ne _ (hAp r hr), hset_ne _ (hAq r hr)]
  have hm5D : ∀ r ∈ D, m5 r.1 = s.mem r.1 := by
    intro r hr
    rw [hm5, hset_ne _ (hDp r hr), hset_ne _ (hDq r hr), hset_ne _ (hDnx r hr),
      hset_ne _ (hDp r hr), hset_ne _ (hDq r hr)]
  have hfrA : ∀ x, frontAddr (A ++ [pv]) x = frontAddr A pv.1 := fun x => by
    rw [frontAddr_append, frontAddr_cons]
  have hstart' : s.start = frontAddr A pv.1 := by
    rw [h.start_eq, hpl, frontAddr_append, hfrA]
  have hend' : s.endp = backAddr D qv.1 := by
    rw [h.end_eq, hpl, backAddr_append, backAddr_cons]
  have hlenpl : pl.length = A.length + D.length + 2 := by
    rw [hpl]
    simp only [List.length_append, List.length_cons, List.length_singleton,
      List.length_nil]
    omega
  refine ⟨?_, ?_, ?_, ?_, ?_, ?_, ?_, ?_⟩
  · -- chain of the spliced list
    show chainSeg m5 0 (pl.take i ++ (s.next, v) :: pl.drop i) 0
    rw [htake, hdrop, chainSeg_append]
    constructor
    · rw [chainSeg_append]
      constructor
      · refine chainSeg_frame hm5A ?_
        simpa using hcA
      · refine ⟨?_, trivial⟩
        simpa using hm5p
    · simp only [backAddr_append, backAddr_singleton]
      refine ⟨?_, ?_, ?_⟩
      · show m5 s.next = some ⟨v, xor_ptrs pv.1 qv.1⟩
        rw [hm5new, xor_ptrs_comm]
      · show m5 qv.1 = some ⟨qv.2, xor_ptrs s.next fD⟩
        rw [hm5q, xor_ptrs_comm]
      · exact chainSeg_frame hm5D hcD
  · show s.size + 1 = (pl.take i ++ (s.next, v) :: pl.drop i).length
    rw [htake, hdrop]
    simp only [List.length_append, List.length_cons, List.length_singleton,
      List.length_nil]
    omega
  · show s.start = frontAddr (pl.take i ++ (s.next, v) :: pl.drop i) 0
    rw [htake, frontAddr_append, hfrA, hstart']
  · show s.endp = backAddr (pl.take i ++ (s.next, v) :: pl.drop i) 0
    rw [htake, hdrop, backAddr_append, backAddr_cons, backAddr_cons, hend']
  · show (pl.take i ++ (s.next, v) :: pl.drop i).Pairwise fun p q => p.1 ≠ q.1
    rw [htake, hdrop, List.pairwise_append]
    refine ⟨hndAp, ?_, ?_⟩
    · rw [List.pairwise_cons]
      refine ⟨?_, hndQD⟩
      intro r hr
      rcases List.mem_cons.mp hr with rfl | hr
      · exact Ne.symm hqfresh
      · exact Ne.symm (hDnx r hr)
    · intro a ha b hb
      rcases List.mem_cons.mp hb with rfl | hb
      · rcases List.mem_append.mp ha with haA | hapv
        · exact hAnx a haA
        · have : a = pv := by simpa using hapv
          subst this
          exact hpfresh
      · exact hcross a ha b hb
  · show ∀ r ∈ pl.take i ++ (s.next, v) :: pl.drop i, 0 < r.1
    intro r hr
    rw [htake, hdrop] at hr
    have hr' : r = (s.next, v) ∨ r ∈ pl := by
      rw [hpl]
      simp only [List.mem_append, List.mem_cons, List.mem_singleton] at hr ⊢
      tauto
    rcases hr' with rfl | hr'
    · exact h.next_pos
    · exact h.pos r hr'
  · show ∀ r ∈ pl.take i ++ (s.next, v) :: pl.drop i, r.1 < s.next + 1
    intro r hr
    rw [htake, hdrop] at hr
    have hr' : r = (s.next, v) ∨ r ∈ pl := by
      rw [hpl]
      simp only [List.mem_append, List.mem_cons, List.mem_singleton] at hr ⊢
      tauto
    rcases hr' with rfl | hr'
    · exact Nat.lt_succ_self _
    · exact Nat.lt_succ_of_lt (h.bounded r hr')
  · show 0 < s.next + 1
    omega

/-! ### Remove specification -/

/-- The `remove_at` succeeds on every in-range index, returns the payload at that
index and unsplices the node. -/
theorem remove_at_spec {s : XorLinkedList T} {pl : List (Nat × T)} (h : WF s pl)
    {i : Nat} (hi : i < pl.length) :
    ∃ s', remove_at s i = some (some (pl.get ⟨i, hi⟩).2, s') ∧
      WF s' (pl.take i ++ pl.drop (i + 1)) ∧ s'.next = s.next := by
  have hsz := h.size_eq
  by_cases hi0 : i = 0
  · subst hi0
    cases pl with
    | nil => simp at hi
    | cons r rest =>
      obtain ⟨a, v⟩ := r
      obtain ⟨s', hps, hwf, hnx⟩ := pop_front_spec h
      refine ⟨s', ?_, by simpa using hwf, hnx⟩
      rw [remove_at, if_neg (by omega), if_pos rfl]
      exact hps
  by_cases hilast : i + 1 = pl.length
  · have hx : pl = pl.take i ++ [pl.get ⟨i, hi⟩] := by
      have h1 : pl.take pl.length = pl := List.take_length pl
      conv_lhs => rw [← h1, ← hilast]
      rw [List.take_succ, List.getElem?_eq_getElem hi, Option.toList_some,
        List.get_eq_getElem]
    obtain ⟨s', hps, hwf, hnx⟩ :=
      @pop_back_spec T s (pl.take i) (pl.get ⟨i, hi⟩) (by rw [← hx]; exact h)
    refine ⟨s', ?_, ?_, hnx⟩
    · rw [remove_at, if_neg (by omega), if_neg hi0, if_pos (by omega)]
      exact hps
    · have hdropn : pl.drop (i + 1) = [] := by
        rw [hilast, List.drop_length]
      rw [hdropn, List.append_nil]
      exact hwf
  -- middle case: 0 < i, i + 1 < length
  have hi1 : 0 < i := by omega
  have him1 : i - 1 < pl.length := by omega
  have hip1 : i + 1 < pl.length := by omega
  have hieq : i - 1 + 1 = i := by omega
  set pv := pl.get ⟨i - 1, him1⟩ with hpv
  set cv := pl.get ⟨i, hi⟩ with hcv
  set qn := pl.get ⟨i + 1, hip1⟩ with hqn
  set A := pl.take (i - 1) with hA
  set D := pl.drop (i + 2) with hD
  have htake : pl.take i = A ++ [pv] := by
    conv_lhs => rw [← hieq]
    rw [List.take_succ, List.getElem?_eq_getElem him1]
    simp [hA, hpv]
  have hdrop1 : pl.drop (i + 1) = qn :: D := by
    rw [List.drop_eq_getElem_cons hip1, hqn, hD, List.get_eq_getElem]
  have hdrop0 : pl.drop i = cv :: qn :: D := by
    rw [List.drop_eq_getElem_cons hi, hdrop1, hcv, List.get_eq_getElem]
  have hpl : pl = (A ++ [pv]) ++ cv :: qn :: D := by
    conv_lhs => rw [← List.take_append_drop i pl, htake, hdrop0]
  set fD := frontAddr D 0 with hfD
  set bA := backAddr A 0 with hbA
  -- chain decomposition
  have hc0 := h.chain
  rw [hpl, chainSeg_append] at hc0
  obtain ⟨hcAp, hcRest⟩ := hc0
  rw [backAddr_append, backAddr_singleton] at hcRest
  obtain ⟨hcvmem0, hcRest2⟩ := hcRest
  obtain ⟨hqnmem0, hchD⟩ := hcRest2
  have hcvmem : s.mem cv.1 = some ⟨cv.2, xor_ptrs pv.1 qn.1⟩ := by
    simpa using hcvmem0
  have hqnmem : s.mem qn.1 = some ⟨qn.2, xor_ptrs cv.1 fD⟩ := by
    simpa [hfD] using hqnmem0
  rw [chainSeg_append] at hcAp
  obtain ⟨hcA, hcP⟩ := hcAp
  have hcA : chainSeg s.mem 0 A pv.1 := by simpa using hcA
  have hpmem : s.mem pv.1 = some ⟨pv.2, xor_ptrs bA cv.1⟩ := by
    obtain ⟨hp1, -⟩ := hcP
    simpa [hbA] using hp1
  -- distinctness
  have hnd0 := h.nodup
  rw [hpl, List.pairwise_append] at hnd0
  obtain ⟨hndAp, hndRest, hcross⟩ := hnd0
  have hndAp2 := hndAp
  rw [List.pairwise_append] at hndAp2
  obtain ⟨hndA, -, hcrossA⟩ := hndAp2
  have hndRest2 := hndRest
  rw [List.pairwise_cons] at hndRest2
  obtain ⟨hndC, hndQD⟩ := hndRest2
  have hndQD2 := hndQD
  rw [List.pairwise_cons] at hndQD2
  obtain ⟨hndQ, hndD⟩ := hndQD2
  have hpc : pv.1 ≠ cv.1 := hcross pv (by simp) cv (by simp)
  have hpqn : pv.1 ≠ qn.1 := hcross pv (by simp) qn (by simp)
  have hcqn : cv.1 ≠ qn.1 := hndC qn (by simp)
  have hAp : ∀ r ∈ A, r.1 ≠ pv.1 := fun r hr => hcrossA r hr pv (by simp)
  have hAc : ∀ r ∈ A, r.1 ≠ cv.1 := fun r hr => hcross r (by simp [hr]) cv (by simp)
  have hAqn : ∀ r ∈ A, r.1 ≠ qn.1 := fun r hr => hcross r (by simp [hr]) qn (by simp)
  have hDp : ∀ r ∈ D, r.1 ≠ pv.1 := fun r hr =>
    (hcross pv (by simp) r (by simp [hr])).symm
  have hDc : ∀ r ∈ D, r.1 ≠ cv.1 := fun r hr => (hndC r (by simp [hr])).symm
  have hDqn : ∀ r ∈ D, r.1 ≠ qn.1 := fun r hr => (hndQ r hr).symm
  -- locate the target
  have hfq : frontAddr (pl.drop i) 0 = cv.1 := by rw [hdrop0, frontAddr_cons]
  have hbp : backAddr (pl.take i) 0 = pv.1 := by
    rw [htake, backAddr_append, backAddr_singleton]
  have hgp : get_ptr_at_and_prev s i = some (cv.1, pv.1) := by
    rw [get_ptr_at_and_prev_spec h (by omega), hfq, hbp]
  -- the successive heap reads made by remove_at
  have hr1 : hset s.mem qn.1 ⟨qn.2, fD⟩ pv.1 = some ⟨pv.2, xor_ptrs bA cv.1⟩ := by
    rw [hset_ne _ hpqn]
    exact hpmem
  have hr2 : hset (hset s.mem qn.1 ⟨qn.2, fD⟩) pv.1 ⟨pv.2, bA⟩ qn.1 =
      some ⟨qn.2, fD⟩ := by
    rw [hset_ne _ (Ne.symm hpqn), hset_same]
  have hr3 : hset (hset (hset s.mem qn.1 ⟨qn.2, fD⟩) pv.1 ⟨pv.2, bA⟩)
      qn.1 ⟨qn.2, xor_ptrs fD pv.1⟩ pv.1 = some ⟨pv.2, bA⟩ := by
    rw [hset_ne _ hpqn, hset_same]
  have heval : remove_at s i = some (some cv.2, ⟨s.size - 1, s.start, s.endp,
      hdel (hset (hset (hset (hset s.mem qn.1 ⟨qn.2, fD⟩) pv.1 ⟨pv.2, bA⟩)
        qn.1 ⟨qn.2, xor_ptrs fD pv.1⟩) pv.1 ⟨pv.2, xor_ptrs bA qn.1⟩) cv.1,
      s.next⟩) := by
    rw [remove_at, if_neg (by omega), if_neg hi0, if_neg (by omega), hgp]
    simp only [hcvmem, xor_decode, xor_decode', hqnmem, hr1, hr2, hr3]
  refine ⟨_, heval, ?_, rfl⟩
  set m4 : Mem T :=
    hdel (hset (hset (hset (hset s.mem qn.1 ⟨qn.2, fD⟩) pv.1 ⟨pv.2, bA⟩)
      qn.1 ⟨qn.2, xor_ptrs fD pv.1⟩) pv.1 ⟨pv.2, xor_ptrs bA qn.1⟩) cv.1 with hm4
  -- reads of the final heap
  have hm4p : m4 pv.1 = some ⟨pv.2, xor_ptrs bA qn.1⟩ := by
    rw [hm4, hdel_ne _ hpc, hset_same]
  have hm4q : m4 qn.1 = some ⟨qn.2, xor_ptrs fD pv.1⟩ := by
    rw [hm4, hdel_ne _ hcqn.symm, hset_ne _ (Ne.symm hpqn), hset_same]
  have hm4A : ∀ r ∈ A, m4 r.1 = s.mem r.1 := by
    intro r hr
    rw [hm4, hdel_ne _ (hAc r hr), hset_ne _ (hAp r hr), hset_ne _ (hAqn r hr),
      hset_ne _ (hAp r hr), hset_ne _ (hAqn r hr)]
  have hm4D : ∀ r ∈ D, m4 r.1 = s.mem r.1 := by
    intro r hr
    rw [hm4, hdel_ne _ (hDc r hr), hset_ne _ (hDp r hr), hset_ne _ (hDqn r hr),
      hset_ne _ (hDp r hr), hset_ne _ (hDqn r hr)]
  have hfrA : ∀ x, frontAddr (A ++ [pv]) x = frontAddr A pv.1 := fun x => by
    rw [frontAddr_append, frontAddr_cons]
  have hstart' : s.start = frontAddr A pv.1 := by
    rw [h.start_eq, hpl, frontAddr_append, hfrA]
  have hend' : s.endp = backAddr D qn.1 := by
    rw [h.end_eq, hpl, backAddr_append, backAddr_cons, backAddr_cons]
  have hsublist : List.Sublist ((A ++ [pv]) ++ qn :: D)
      ((A ++ [pv]) ++ cv :: qn :: D) :=
    List.Sublist.append_left (List.sublist_cons_self cv (qn :: D)) _
  have hlenpl : pl.length = A.length + D.length + 3 := by
    rw [hpl]
    simp only [List.length_append, List.length_cons, List.length_singleton,
      List.length_nil]
    omega
  refine ⟨?_, ?_, ?_, ?_, ?_, ?_, ?_, h.next_pos⟩
  · show chainSeg m4 0 (pl.take i ++ pl.drop (i + 1)) 0
    rw [htake, hdrop1, chainSeg_append]
    constructor
    · rw [chainSeg_append]
      constructor
      · refine chainSeg_frame hm4A ?_
        simpa using hcA
      · refine ⟨?_, trivial⟩
        simpa using hm4p
    · simp only [backAddr_append, backAddr_singleton]
      refine ⟨?_, ?_⟩
      · show m4 qn.1 = some ⟨qn.2, xor_ptrs pv.1 fD⟩
        rw [hm4q, xor_ptrs_comm]
      · exact chainSeg_frame hm4D hchD
  · show s.size - 1 = (pl.take i ++ pl.drop (i + 1)).length
    rw [htake, hdrop1]
    simp only [List.length_append, List.length_cons, List.length_singleton,
      List.length_nil]
    omega
  · show s.start = frontAddr (pl.take i ++ pl.drop (i + 1)) 0
    rw [htake, frontAddr_append, hfrA, hstart']
  · show s.endp = backAddr (pl.take i ++ pl.drop (i + 1)) 0
    rw [htake, hdrop1, backAddr_append, backAddr_cons, hend']
  · show (pl.take i ++ pl.drop (i + 1)).Pairwise fun p q => p.1 ≠ q.1
    rw [htake, hdrop1]
    have := h.nodup
    rw [hpl] at this
    exact this.sublist hsublist
  · show ∀ r ∈ pl.take i ++ pl.drop (i + 1), 0 < r.1
    intro r hr
    rw [htake, hdrop1] at hr
    exact h.pos r (by rw [hpl]; exact hsublist.subset hr)
  · show ∀ r ∈ pl.take i ++ pl.drop (i + 1), r.1 < s.next
    intro r hr
    rw [htake, hdrop1] at hr
    exact h.bounded r (by rw [hpl]; exact hsublist.subset hr)

/-! ### Peek, iterator, drain and bulk-operation specifications -/

theorem peek_front_mut_eq (s : XorLinkedList T) :
    peek_front_mut s = peek_front s := rfl

theorem peek_back_mut_eq (s : XorLinkedList T) :
    peek_back_mut s = peek_back s := rfl

theorem get_mut_eq (s : XorLinkedList T) (i : Nat) : get_mut s i = get s i := rfl

theorem peek_back_eq_reverse (s : XorLinkedList T) :
    peek_back s = peek_front (reverse s) := rfl

/-- The `peek_front` returns the head payload (or `None` on the empty list). -/
theorem peek_front_spec {s : XorLinkedList T} {pl : List (Nat × T)}
    (h : WF s pl) : peek_front s = some (pl.map Prod.snd).head? := by
  cases pl with
  | nil =>
    rw [peek_front, if_pos (by simp [h.size_eq])]
    rfl
  | cons r rest =>
    obtain ⟨a, v⟩ := r
    have hsz : ¬ s.size = 0 := by simp [h.size_eq]
    have hst : s.start = a := by simpa using h.start_eq
    rw [peek_front, if_neg hsz, hst, h.chain.1]
    rfl

/-- The `peek_back` returns the last payload (or `None` on the empty list). -/
theorem peek_back_spec {s : XorLinkedList T} {pl : List (Nat × T)}
    (h : WF s pl) : peek_back s = some (pl.map Prod.snd).getLast? := by
  rw [peek_back_eq_reverse, peek_front_spec (reverse_WF h)]
  simp

/-- The forward borrowing traversal yields exactly the payloads in order. -/
theorem iterFwd_spec {s : XorLinkedList T} {pl : List (Nat × T)}
    (h : WF s pl) : iterFwd s = some (pl.map Prod.snd) := by
  rw [iterFwd, h.start_eq]
  exact iterFrom_chain h.chain h.pos (by rw [h.size_eq])

theorem iterBwd_eq_reverse (s : XorLinkedList T) :
    iterBwd s = iterFwd (reverse s) := rfl

/-- The backward borrowing traversal yields the payloads in reverse order. -/
theorem iterBwd_spec {s : XorLinkedList T} {pl : List (Nat × T)}
    (h : WF s pl) : iterBwd s = some (pl.map Prod.snd).reverse := by
  rw [iterBwd_eq_reverse, iterFwd_spec (reverse_WF h)]
  simp

/-- Draining via the consuming forward iterator yields the payloads. -/
theorem drain_spec {s : XorLinkedList T} {pl : List (Nat × T)} (h : WF s pl) :
    drain pl.length s = some (pl.map Prod.snd) := by
  induction pl generalizing s with
  | nil =>
    have h0 : pop_front s = some (none, s) :=
      pop_front_nil (by simpa using h.start_eq)
    simp [drain, h0]
  | cons r rest ih =>
    obtain ⟨a, v⟩ := r
    obtain ⟨s', hps, hwf, -⟩ := pop_front_spec h
    simp [drain, hps, ih hwf]

/-- Popping the front `pl.length` times yields the payloads in order. -/
theorem popFrontN_spec {s : XorLinkedList T} {pl : List (Nat × T)}
    (h : WF s pl) : popFrontN pl.length s = some (pl.map Prod.snd) := by
  induction pl generalizing s with
  | nil => rfl
  | cons r rest ih =>
    obtain ⟨a, v⟩ := r
    obtain ⟨s', hps, hwf, -⟩ := pop_front_spec h
    simp [popFrontN, hps, ih hwf]

theorem popBackN_eq_reverse (n : Nat) (s : XorLinkedList T) :
    popBackN n s = popFrontN n (reverse s) := by
  induction n generalizing s with
  | zero => rfl
  | succ k ih =>
    show (match pop_back s with
      | some (some v, s1) => (popBackN k s1).map (v :: ·)
      | _ => none) =
      (match pop_front (reverse s) with
      | some (some v, s1) => (popFrontN k s1).map (v :: ·)
      | _ => none)
    rw [pop_back_eq_reverse]
    cases pop_front (reverse s) with
    | none => rfl
    | some r =>
      obtain ⟨v1, t⟩ := r
      cases v1 with
      | none => rfl
      | some v => simp [ih, reverse_reverse]

/-- Popping the back `pl.length` times yields the payloads in reverse. -/
theorem popBackN_spec {s : XorLinkedList T} {pl : List (Nat × T)}
    (h : WF s pl) : popBackN pl.length s = some (pl.map Prod.snd).reverse := by
  rw [popBackN_eq_reverse]
  have := popFrontN_spec (reverse_WF h)
  rw [List.length_reverse] at this
  rw [this]
  simp

/-- Pushing a sequence at the back appends its values in order. -/
theorem pushAllBack_spec {s : XorLinkedList T} {pl : List (Nat × T)}
    (h : WF s pl) (vs : List T) :
    ∃ s' pl', pushAllBack s vs = some s' ∧ WF s' pl' ∧
      pl'.map Prod.snd = pl.map Prod.snd ++ vs := by
  induction vs generalizing s pl with
  | nil => exact ⟨s, pl, rfl, h, by simp⟩
  | cons v rest ih =>
    obtain ⟨s1, hs1, hwf1, -⟩ := push_back_spec h v
    obtain ⟨s', pl', hrun, hwf, hmap⟩ := ih hwf1
    refine ⟨s', pl', ?_, hwf, ?_⟩
    · rw [pushAllBack, hs1]
      exact hrun
    · rw [hmap]
      simp

/-- Pushing a sequence at the front prepends its values in reverse order. -/
theorem pushAllFront_spec {s : XorLinkedList T} {pl : List (Nat × T)}
    (h : WF s pl) (vs : List T) :
    ∃ s' pl', pushAllFront s vs = some s' ∧ WF s' pl' ∧
      pl'.map Prod.snd = vs.reverse ++ pl.map Prod.snd := by
  induction vs generalizing s pl with
  | nil => exact ⟨s, pl, rfl, h, by simp⟩
  | cons v rest ih =>
    obtain ⟨s1, hs1, hwf1, -⟩ := push_front_spec h v
    obtain ⟨s', pl', hrun, hwf, hmap⟩ := ih hwf1
    refine ⟨s', pl', ?_, hwf, ?_⟩
    · rw [pushAllFront, hs1]
      exact hrun
    · rw [hmap]
      simp

/-! ### Structural equality -/

theorem zip_all_eq_iff [DecidableEq T] {l1 l2 : List T}
    (hlen : l1.length = l2.length) :
    (((l1.zip l2).all fun p => decide (p.1 = p.2)) = true) ↔ l1 = l2 := by
  induction l1 generalizing l2 with
  | nil =>
    cases l2 with
    | nil => simp
    | cons b t => simp at hlen
  | cons a t1 ih =>
    cases l2 with
    | nil => simp at hlen
    | cons b t2 =>
      simp only [List.zip_cons_cons, List.all_cons, Bool.and_eq_true,
        decide_eq_true_eq, List.cons.injEq]
      rw [ih (by simpa using hlen)]

/-- The `PartialEq` implementation decides equality of the element
sequences. -/
theorem eqOp_spec [DecidableEq T] {s1 s2 : XorLinkedList T}
    {pl1 pl2 : List (Nat × T)} (h1 : WF s1 pl1) (h2 : WF s2 pl2) :
    (eqOp s1 s2 = some true) ↔ pl1.map Prod.snd = pl2.map Prod.snd := by
  by_cases hsz : s1.size = s2.size
  · rw [eqOp, if_pos hsz, iterFwd_spec h1, iterFwd_spec h2]
    simp only [Option.some.injEq]
    exact zip_all_eq_iff (by
      rw [List.length_map, List.length_map, ← h1.size_eq, ← h2.size_eq, hsz])
  · rw [eqOp, if_neg hsz]
    refine iff_of_false (by simp) ?_
    intro he
    apply hsz
    have hlen := congrArg List.length he
    simp only [List.length_map] at hlen
    rw [h1.size_eq, h2.size_eq, hlen]

/-! ### Preservation under arbitrary operation sequences -/

theorem applyOp_WF {s : XorLinkedList T} {pl : List (Nat × T)} (h : WF s pl)
    (op : Op T) {s' : XorLinkedList T} (happ : applyOp s op = some s') :
    ∃ pl', WF s' pl' := by
  cases op with
  | pushFront v =>
    obtain ⟨t, ht, hwf, -⟩ := push_front_spec h v
    simp only [applyOp, ht, Option.some.injEq] at happ
    exact ⟨_, happ ▸ hwf⟩
  | pushBack v =>
    obtain ⟨t, ht, hwf, -⟩ := push_back_spec h v
    simp only [applyOp, ht, Option.some.injEq] at happ
    exact ⟨_, happ ▸ hwf⟩
  | popFront =>
    cases pl with
    | nil =>
      simp only [applyOp, pop_front_nil (by simpa using h.start_eq),
        Option.some.injEq] at happ
      exact ⟨[], happ ▸ h⟩
    | cons r rest =>
      obtain ⟨a, v⟩ := r
      obtain ⟨t, ht, hwf, -⟩ := pop_front_spec h
      simp only [applyOp, ht, Option.some.injEq] at happ
      exact ⟨_, happ ▸ hwf⟩
  | popBack =>
    rcases List.eq_nil_or_concat pl with rfl | ⟨xs, x, rfl⟩
    · simp only [applyOp, pop_back_nil (by simpa using h.end_eq),
        Option.some.injEq] at happ
      exact ⟨[], happ ▸ h⟩
    · rw [List.concat_eq_append] at h
      obtain ⟨t, ht, hwf, -⟩ := pop_back_spec h
      simp only [applyOp, ht, Option.some.injEq] at happ
      exact ⟨_, happ ▸ hwf⟩
  | insertAt i v =>
    simp only [applyOp] at happ
    by_cases hi : i ≤ pl.length
    · obtain ⟨t, ht, hwf, -⟩ := insert_at_spec h hi v
      rw [ht, Option.some.injEq] at happ
      exact ⟨_, happ ▸ hwf⟩
    · rw [insert_at, if_pos (by rw [h.size_eq]; omega)] at happ
      exact absurd happ (by simp)
  | removeAt i =>
    by_cases hi : i < pl.length
    · obtain ⟨t, ht, hwf, -⟩ := remove_at_spec h hi
      simp only [applyOp, ht, Option.some.injEq] at happ
      exact ⟨_, happ ▸ hwf⟩
    · simp only [applyOp, remove_at, if_pos (show i ≥ s.size by rw [h.size_eq]; omega),
        Option.some.injEq] at happ
      exact ⟨pl, happ ▸ h⟩

theorem runFrom_WF {s : XorLinkedList T} {pl : List (Nat × T)} (h : WF s pl)
    {ops : List (Op T)} {s' : XorLinkedList T}
    (hrun : runFrom s ops = some s') : ∃ pl', WF s' pl' := by
  induction ops generalizing s pl with
  | nil =>
    rw [runFrom, Option.some.injEq] at hrun
    exact ⟨pl, hrun ▸ h⟩
  | cons op rest ih =>
    rw [runFrom] at hrun
    cases happ : applyOp s op with
    | none => rw [happ] at hrun; exact absurd hrun (by simp)
    | some s1 =>
      rw [happ] at hrun
      obtain ⟨pl1, hwf1⟩ := applyOp_WF h op happ
      exact ih hwf1 hrun

/-! ### Branch-free walk variants (for the size/2 independence claim) -/

/-- Modelled from the spec: the node-locating walk that always takes `index`
steps forward from the head (the `index <= size / 2` branch of
`get_ptr_at`). -/
def get_ptr_at_fwd (s : XorLinkedList T) (index : Nat) : Option Nat :=
  (walkSteps s.mem index 0 s.start).map Prod.fst

/-- Modelled from the spec: the walk that always takes `size - index - 1`
steps backward from the tail (the other branch of `get_ptr_at`). -/
def get_ptr_at_bwd (s : XorLinkedList T) (index : Nat) : Option Nat :=
  (walkSteps s.mem (s.size - index - 1) 0 s.endp).map Prod.fst

/-- The forward-only variant of `get_ptr_at_and_prev`. -/
def get_ptr_at_and_prev_fwd (s : XorLinkedList T) (index : Nat) :
    Option (Nat × Nat) :=
  match walkSteps s.mem index 0 s.start with
  | none => none
  | some (c, p) => some (c, p)

/-- The backward-only variant of `get_ptr_at_and_prev` (walks `size - index`
steps from the tail, then swaps current and previous). -/
def get_ptr_at_and_prev_bwd (s : XorLinkedList T) (index : Nat) :
    Option (Nat × Nat) :=
  match walkSteps s.mem (s.size - index) 0 s.endp with
  | none => none
  | some (c, p) => some (p, c)

theorem get_ptr_at_fwd_spec {s : XorLinkedList T} {pl : List (Nat × T)}
    (h : WF s pl) {i : Nat} (hi : i < pl.length) :
    get_ptr_at_fwd s i = some (pl.get ⟨i, hi⟩).1 := by
  rw [get_ptr_at_fwd, h.start_eq, walk_from_start h.chain (Nat.le_of_lt hi)]
  simp [frontAddr_drop hi]

theorem get_ptr_at_bwd_spec {s : XorLinkedList T} {pl : List (Nat × T)}
    (h : WF s pl) {i : Nat} (hi : i < pl.length) :
    get_ptr_at_bwd s i = some (pl.get ⟨i, hi⟩).1 := by
  have hk : s.size - i - 1 ≤ pl.length := by
    rw [h.size_eq]
    omega
  have hnk : pl.length - (s.size - i - 1) = i + 1 := by
    rw [h.size_eq]
    omega
  rw [get_ptr_at_bwd, h.end_eq, walk_from_end h.chain hk, hnk]
  simp [backAddr_take_succ hi]

theorem get_ptr_at_and_prev_fwd_spec {s : XorLinkedList T}
    {pl : List (Nat × T)} (h : WF s pl) {i : Nat} (hi : i ≤ pl.length) :
    get_ptr_at_and_prev_fwd s i =
      some (frontAddr (pl.drop i) 0, backAddr (pl.take i) 0) := by
  rw [get_ptr_at_and_prev_fwd, h.start_eq, walk_from_start h.chain hi]

theorem get_ptr_at_and_prev_bwd_spec {s : XorLinkedList T}
    {pl : List (Nat × T)} (h : WF s pl) {i : Nat} (hi : i ≤ pl.length) :
    get_ptr_at_and_prev_bwd s i =
      some (frontAddr (pl.drop i) 0, backAddr (pl.take i) 0) := by
  have hk : s.size - i ≤ pl.length := by
    rw [h.size_eq]
    omega
  have hnk : pl.length - (s.size - i) = i := by
    rw [h.size_eq]
    omega
  rw [get_ptr_at_and_prev_bwd, h.end_eq, walk_from_end h.chain hk, hnk]

/-! ### Bracket indexing (panicking accessors) -/

/-- The `Index::index`: `get(index).expect(...)`; the panic (`expect` on `None`)
and undefined behaviour both collapse to `none`. -/
def indexOp (s : XorLinkedList T) (index : Nat) : Option T :=
  match get s index with
  | some (some v) => some v
  | _ => none

/-- The `IndexMut::index_mut`: `get_mut(index).expect(...)`. -/
def indexMutOp (s : XorLinkedList T) (index : Nat) : Option T :=
  match get_mut s index with
  | some (some v) => some v
  | _ => none

theorem indexMutOp_eq (s : XorLinkedList T) (index : Nat) :
    indexMutOp s index = indexOp s index := rfl

/-! ### A `None` result leaves the state untouched -/

theorem pop_front_none_unchanged {s s' : XorLinkedList T}
    (he : pop_front s = some (none, s')) : s' = s := by
  simp only [pop_front, pop_end] at he
  split at he
  · exact absurd he (by simp)
  · rename_i r sz st en m heq
    simp only [Option.some.injEq, Prod.mk.injEq] at he
    obtain ⟨hr, hs'⟩ := he
    subst hr
    split at heq
    · simp only [Option.some.injEq, Prod.mk.injEq, true_and] at heq
      obtain ⟨hsz, hst, hen, hm⟩ := heq
      subst hsz
      subst hst
      subst hen
      subst hm
      rw [← hs']
    · split at heq
      · exact absurd heq (by simp)
      · split at heq
        · exact absurd heq (by simp)
        · split at heq
          · exact absurd heq (by simp)
          · exact absurd heq (by simp)

theorem pop_back_none_unchanged {s s' : XorLinkedList T}
    (he : pop_back s = some (none, s')) : s' = s := by
  simp only [pop_back, pop_end] at he
  split at he
  · exact absurd he (by simp)
  · rename_i r sz en st m heq
    simp only [Option.some.injEq, Prod.mk.injEq] at he
    obtain ⟨hr, hs'⟩ := he
    subst hr
    split at heq
    · simp only [Option.some.injEq, Prod.mk.injEq, true_and] at heq
      obtain ⟨hsz, hen, hst, hm⟩ := heq
      subst hsz
      subst hst
      subst hen
      subst hm
      rw [← hs']
    · split at heq
      · exact absurd heq (by simp)
      · split at heq
        · exact absurd heq (by simp)
        · split at heq
          · exact absurd heq (by simp)
          · exact absurd heq (by simp)

theorem remove_at_none_unchanged {s s' : XorLinkedList T} {i : Nat}
    (he : remove_at s i = some (none, s')) : s' = s := by
  rw [remove_at] at he
  split at he
  · simp only [Option.some.injEq, Prod.mk.injEq, true_and] at he
    exact he.symm
  · split at he
    · exact pop_front_none_unchanged he
    · split at he
      · exact pop_back_none_unchanged he
      · dsimp only at he
        split at he
        · exact absurd he (by simp)
        · split at he
          · exact absurd he (by simp)
          · split at he
            · exact absurd he (by simp)
            · split at he
              · exact absurd he (by simp)
              · split at he
                · exact absurd he (by simp)
                · split at he
                  · exact absurd he (by simp)
                  · exact absurd he (by simp)

/-! ## Concrete states used by the witnesses -/

/-- The state reached from the empty list by `push_back 5`: one node at
address `1`. -/
def oneState : XorLinkedList Nat :=
  { size := 1, start := 1, endp := 1, mem := hset (fun _ => none) 1 ⟨5, 0⟩,
    next := 2 }

theorem oneState_WF : WF oneState [(1, 5)] := by
  refine ⟨⟨rfl, trivial⟩, rfl, rfl, rfl, by decide, ?_, ?_, by decide⟩
  · intro p hp
    have : p = ((1, 5) : Nat × Nat) := by simpa using hp
    subst this
    decide
  · intro p hp
    have : p = ((1, 5) : Nat × Nat) := by simpa using hp
    subst this
    decide

/-! ## The claims -/

/-- C1: for every sequence of values, pushing them with `push_back` and then
popping with `pop_front` as many times returns the values in their original
order; pushing with `push_front` and popping with `pop_back` likewise. -/
theorem c1_round_trip (T : Type) (vs : List T) :
    ∃ s t, pushAllBack (new T) vs = some s ∧ popFrontN vs.length s = some vs ∧
      pushAllFront (new T) vs = some t ∧ popBackN vs.length t = some vs := by
  obtain ⟨s, pls, hs, hwfs, hms⟩ := pushAllBack_spec (WF_new T) vs
  obtain ⟨t, plt, ht, hwft, hmt⟩ := pushAllFront_spec (WF_new T) vs
  have hms' : pls.map Prod.snd = vs := by simpa using hms
  have hmt' : plt.map Prod.snd = vs.reverse := by simpa using hmt
  have hlens : pls.length = vs.length := by
    have := congrArg List.length hms'
    simpa using this
  have hlent : plt.length = vs.length := by
    have := congrArg List.length hmt'
    simpa using this
  refine ⟨s, t, hs, ?_, ht, ?_⟩
  · rw [← hlens, popFrontN_spec hwfs, hms']
  · rw [← hlent, popBackN_spec hwft, hmt']
    simp

/-- C2: `get` (and `get_mut`) is empty exactly when the index is out of
range; on a valid index `i` it returns the `i`-th element of the forward
borrowing traversal, which is also the `(size-1-i)`-th element of the
backward borrowing traversal. -/
theorem c2_get_matches_traversals {T : Type} {s : XorLinkedList T}
    {pl : List (Nat × T)} (h : WF s pl) :
    (∀ i, get s i = some none ↔ len s ≤ i) ∧
    (∀ i, get_mut s i = get s i) ∧
    ∃ fwd bwd, iterFwd s = some fwd ∧ iterBwd s = some bwd ∧
      ∀ i, i < len s → ∃ v, get s i = some (some v) ∧
        fwd.get? i = some v ∧ bwd.get? (len s - 1 - i) = some v := by
  have hsz := h.size_eq
  refine ⟨?_, fun i => get_mut_eq s i, ?_⟩
  · intro i
    simp only [len]
    constructor
    · intro hg
      by_contra hlt
      have hi : i < pl.length := by omega
      rw [get_spec h hi] at hg
      simp at hg
    · intro hle
      exact get_oob i hle
  · refine ⟨pl.map Prod.snd, (pl.map Prod.snd).reverse, iterFwd_spec h,
      iterBwd_spec h, ?_⟩
    intro i hi
    simp only [len] at hi
    have hi' : i < pl.length := by omega
    have hfl : (pl.map Prod.snd).length = pl.length := by simp
    refine ⟨(pl.get ⟨i, hi'⟩).2, get_spec h hi', ?_, ?_⟩
    · rw [List.get?_eq_get (by rw [hfl]; exact hi')]
      simp [List.get_eq_getElem, List.getElem_map]
    · have hlen_eq : len s - 1 - i = (pl.map Prod.snd).length - 1 - i := by
        simp only [len, h.size_eq, hfl]
      rw [hlen_eq,
        List.get?_reverse (show (pl.map Prod.snd).length - 1 - i <
          (pl.map Prod.snd).length from by rw [hfl]; omega)]
      have hidx : (pl.map Prod.snd).length - 1 -
          ((pl.map Prod.snd).length - 1 - i) = i := by
        rw [hfl]
        omega
      rw [hidx, List.get?_eq_get (by rw [hfl]; exact hi')]
      simp [List.get_eq_getElem, List.getElem_map]

/-- C3: inserting `v` at any index `0 ≤ i ≤ len` and then removing at `i`
returns `v` and restores the original length and forward element
sequence. -/
theorem c3_insert_remove_inverse {T : Type} {s : XorLinkedList T}
    {pl : List (Nat × T)} (h : WF s pl) (i : Nat) (hi : i ≤ len s) (v : T) :
    ∃ s1 s2, insert_at s i v = some s1 ∧ remove_at s1 i = some (some v, s2) ∧
      len s2 = len s ∧ iterFwd s2 = iterFwd s := by
  have hsz := h.size_eq
  simp only [len] at hi
  have hi' : i ≤ pl.length := by omega
  obtain ⟨s1, hins, hwf1, -⟩ := insert_at_spec h hi' v
  have htl : (pl.take i).length = i := by simp [Nat.min_eq_left hi']
  have hlen1 : (pl.take i ++ (s.next, v) :: pl.drop i).length = pl.length + 1 := by
    simp only [List.length_append, List.length_cons, List.length_take,
      List.length_drop]
    omega
  have hi1 : i < (pl.take i ++ (s.next, v) :: pl.drop i).length := by omega
  obtain ⟨s2, hrem, hwf2, -⟩ := remove_at_spec hwf1 hi1
  have hval : ((pl.take i ++ (s.next, v) :: pl.drop i).get ⟨i, hi1⟩) =
      (s.next, v) := by
    have hgl : (pl.take i ++ (s.next, v) :: pl.drop i)[i] = (s.next, v) := by
      rw [List.getElem_append_right (show (pl.take i).length ≤ i by omega)]
      simp [htl]
    simpa [List.get_eq_getElem] using hgl
  have htake1 : (pl.take i ++ (s.next, v) :: pl.drop i).take i = pl.take i :=
    List.take_left' htl
  have hdrop1 : (pl.take i ++ (s.next, v) :: pl.drop i).drop (i + 1) =
      pl.drop i := by
    have hda : (pl.take i ++ (s.next, v) :: pl.drop i).drop
        ((pl.take i).length + 1) = ((s.next, v) :: pl.drop i).drop 1 :=
      List.drop_append 1
    rw [htl] at hda
    simpa using hda
  rw [htake1, hdrop1, List.take_append_drop] at hwf2
  rw [hval] at hrem
  refine ⟨s1, s2, hins, hrem, ?_, ?_⟩
  · simp only [len, hwf2.size_eq, h.size_eq]
  · rw [iterFwd_spec hwf2, iterFwd_spec h]

theorem c2_witness :
    (∀ i, get oneState i = some none ↔ len oneState ≤ i) ∧
    (∀ i, get_mut oneState i = get oneState i) ∧
    ∃ fwd bwd, iterFwd oneState = some fwd ∧ iterBwd oneState = some bwd ∧
      ∀ i, i < len oneState → ∃ v, get oneState i = some (some v) ∧
        fwd.get? i = some v ∧ bwd.get? (len oneState - 1 - i) = some v :=
  c2_get_matches_traversals oneState_WF

theorem c3_witness :
    ∃ s1 s2, insert_at (new Nat) 0 42 = some s1 ∧
      remove_at s1 0 = some (some 42, s2) ∧
      len s2 = len (new Nat) ∧ iterFwd s2 = iterFwd (new Nat) :=
  c3_insert_remove_inverse (WF_new Nat) 0 (Nat.zero_le _) 42

/-- C4: after any successful sequence of push/pop/insert/remove operations
starting from the empty list, `len` equals the number of elements drained by
the consuming forward iterator, and a pop on the (empty) list leaves the
size counter untouched. -/
theorem c4_length_invariant (T : Type) (ops : List (Op T))
    (s : XorLinkedList T) (hrun : runOps T ops = some s) :
    (∃ l, drain (len s) s = some l ∧ l.length = len s) ∧
    (len s = 0 → pop_front s = some (none, s) ∧ pop_back s = some (none, s)) := by
  obtain ⟨pl, hwf⟩ := runFrom_WF (WF_new T) hrun
  constructor
  · refine ⟨pl.map Prod.snd, ?_, ?_⟩
    · rw [show len s = pl.length from by simp only [len, hwf.size_eq]]
      exact drain_spec hwf
    · simp [len, hwf.size_eq]
  · intro h0
    simp only [len] at h0
    have hnil : pl = [] := by
      refine List.length_eq_zero.mp ?_
      rw [← hwf.size_eq, h0]
    subst hnil
    exact ⟨pop_front_nil (by simpa using hwf.start_eq),
      pop_back_nil (by simpa using hwf.end_eq)⟩

theorem c4_witness :
    (∃ l, drain (len oneState) oneState = some l ∧ l.length = len oneState) ∧
    (len oneState = 0 → pop_front oneState = some (none, oneState) ∧
      pop_back oneState = some (none, oneState)) :=
  c4_length_invariant Nat [Op.pushBack 5] oneState rfl

/-- C5: bracket indexing (the `Index`/`IndexMut` implementations, which
`expect` the result of `get`/`get_mut`) panics exactly when the index is out
of range, and `insert_at` panics exactly when the index is strictly greater
than the size. -/
theorem c5_panic_contract {T : Type} {s : XorLinkedList T}
    {pl : List (Nat × T)} (h : WF s pl) (i : Nat) (v : T) :
    (indexOp s i = none ↔ len s ≤ i) ∧
    (indexMutOp s i = indexOp s i) ∧
    (insert_at s i v = none ↔ len s < i) := by
  have hsz := h.size_eq
  simp only [len]
  refine ⟨?_, indexMutOp_eq s i, ?_⟩
  · constructor
    · intro hn
      by_contra hlt
      have hi : i < pl.length := by omega
      rw [indexOp, get_spec h hi] at hn
      simp at hn
    · intro hle
      rw [indexOp, get_oob i hle]
  · constructor
    · intro hn
      by_contra hlt
      have hile : i ≤ pl.length := by omega
      obtain ⟨s1, hins, -, -⟩ := insert_at_spec h hile v
      rw [hins] at hn
      exact absurd hn (by simp)
    · intro hlt
      rw [insert_at, if_pos hlt]

theorem c5_witness :
    (indexOp (new Nat) 3 = none ↔ len (new Nat) ≤ 3) ∧
    (indexMutOp (new Nat) 3 = indexOp (new Nat) 3) ∧
    (insert_at (new Nat) 3 7 = none ↔ len (new Nat) < 3) :=
  c5_panic_contract (WF_new Nat) 3 7

/-- C6: the non-panicking accessors never fail: pops and peeks on an empty
list, and `get`/`get_mut`/`remove_at` at an out-of-range index, return an
explicit `None` (and the state, where one is returned, is unchanged). -/
theorem c6_absence_not_error {T : Type} {s : XorLinkedList T}
    {pl : List (Nat × T)} (h : WF s pl) (i : Nat) :
    (len s = 0 →
      pop_front s = some (none, s) ∧ pop_back s = some (none, s) ∧
      peek_front s = some none ∧ peek_back s = some none ∧
      peek_front_mut s = some none ∧ peek_back_mut s = some none) ∧
    (len s ≤ i →
      get s i = some none ∧ get_mut s i = some none ∧
      remove_at s i = some (none, s)) := by
  constructor
  · intro h0
    simp only [len] at h0
    have hnil : pl = [] := by
      refine List.length_eq_zero.mp ?_
      rw [← h.size_eq, h0]
    subst hnil
    have hst : s.start = 0 := by simpa using h.start_eq
    have hen : s.endp = 0 := by simpa using h.end_eq
    refine ⟨pop_front_nil hst, pop_back_nil hen, ?_, ?_, ?_, ?_⟩
    · rw [peek_front, if_pos h0]
    · rw [peek_back, if_pos h0]
    · rw [peek_front_mut, if_pos h0]
    · rw [peek_back_mut, if_pos h0]
  · intro hle
    simp only [len] at hle
    refine ⟨get_oob i hle, ?_, ?_⟩
    · rw [get_mut_eq]
      exact get_oob i hle
    · rw [remove_at, if_pos hle]

theorem c6_witness :
    (len (new Nat) = 0 →
      pop_front (new Nat) = some (none, new Nat) ∧
      pop_back (new Nat) = some (none, new Nat) ∧
      peek_front (new Nat) = some none ∧ peek_back (new Nat) = some none ∧
      peek_front_mut (new Nat) = some none ∧
      peek_back_mut (new Nat) = some none) ∧
    (len (new Nat) ≤ 0 →
      get (new Nat) 0 = some none ∧ get_mut (new Nat) 0 = some none ∧
      remove_at (new Nat) 0 = some (none, new Nat)) :=
  c6_absence_not_error (WF_new Nat) 0

/-- C7: `reverse` twice is the identity on the state; a single `reverse`
swaps only the anchors (the heap — every node's link field — is untouched),
keeps the list well formed on the reversed sequence, and makes the forward
traversal yield exactly what the backward traversal yielded before. -/
theorem c7_reverse_involution {T : Type} {s : XorLinkedList T}
    {pl : List (Nat × T)} (h : WF s pl) :
    reverse (reverse s) = s ∧
    (reverse s).mem = s.mem ∧
    (reverse s).size = s.size ∧
    WF (reverse s) pl.reverse ∧
    iterFwd (reverse s) = iterBwd s ∧
    iterFwd (reverse s) = some (pl.map Prod.snd).reverse ∧
    iterBwd (reverse s) = iterFwd s := by
  refine ⟨rfl, rfl, rfl, reverse_WF h, rfl, ?_, rfl⟩
  exact iterBwd_spec h

theorem c7_witness :
    reverse (reverse oneState) = oneState ∧
    (reverse oneState).mem = oneState.mem ∧
    (reverse oneState).size = oneState.size ∧
    WF (reverse oneState) ([(1, 5)] : List (Nat × Nat)).reverse ∧
    iterFwd (reverse oneState) = iterBwd oneState ∧
    iterFwd (reverse oneState) =
      some (([(1, 5)] : List (Nat × Nat)).map Prod.snd).reverse ∧
    iterBwd (reverse oneState) = iterFwd oneState :=
  c7_reverse_involution oneState_WF

/-- C8: two lists compare equal (via the `PartialEq` implementation) iff
they have the same length and the same element sequence under forward
traversal. -/
theorem c8_structural_equality {T : Type} [DecidableEq T]
    {s1 s2 : XorLinkedList T} {pl1 pl2 : List (Nat × T)}
    (h1 : WF s1 pl1) (h2 : WF s2 pl2) :
    (eqOp s1 s2 = some true) ↔
      (len s1 = len s2 ∧ pl1.map Prod.snd = pl2.map Prod.snd) := by
  rw [eqOp_spec h1 h2]
  constructor
  · intro he
    refine ⟨?_, he⟩
    have hlen := congrArg List.length he
    simp only [List.length_map] at hlen
    simp only [len, h1.size_eq, h2.size_eq, hlen]
  · exact fun hand => hand.2

theorem c8_witness :
    (eqOp oneState oneState = some true) ↔
      (len oneState = len oneState ∧
        ([(1, 5)] : List (Nat × Nat)).map Prod.snd =
          ([(1, 5)] : List (Nat × Nat)).map Prod.snd) :=
  c8_structural_equality oneState_WF oneState_WF

/-- C9: on a well-formed list the locate walk reaches the same node whether
it always walks forward from the head or always backward from the tail, so
`get_ptr_at` and `get_ptr_at_and_prev` (hence `get`, `get_mut`, `insert_at`
and `remove_at`) do not depend on which side of the `size / 2` comparison
the index falls. -/
theorem c9_walk_direction_agnostic {T : Type} {s : XorLinkedList T}
    {pl : List (Nat × T)} (h : WF s pl) (i : Nat) (hi : i < pl.length) :
    get_ptr_at_fwd s i = get_ptr_at_bwd s i ∧
    get_ptr_at s i = get_ptr_at_fwd s i ∧
    get_ptr_at_and_prev_fwd s i = get_ptr_at_and_prev_bwd s i ∧
    get_ptr_at_and_prev s i = get_ptr_at_and_prev_fwd s i := by
  refine ⟨?_, ?_, ?_, ?_⟩
  · rw [get_ptr_at_fwd_spec h hi, get_ptr_at_bwd_spec h hi]
  · rw [get_ptr_at_fwd_spec h hi, get_ptr_at_spec h hi]
  · rw [get_ptr_at_and_prev_fwd_spec h (Nat.le_of_lt hi),
      get_ptr_at_and_prev_bwd_spec h (Nat.le_of_lt hi)]
  · rw [get_ptr_at_and_prev_spec h (Nat.le_of_lt hi),
      get_ptr_at_and_prev_fwd_spec h (Nat.le_of_lt hi)]

theorem c9_witness :
    get_ptr_at_fwd oneState 0 = get_ptr_at_bwd oneState 0 ∧
    get_ptr_at oneState 0 = get_ptr_at_fwd oneState 0 ∧
    get_ptr_at_and_prev_fwd oneState 0 = get_ptr_at_and_prev_bwd oneState 0 ∧
    get_ptr_at_and_prev oneState 0 = get_ptr_at_and_prev_fwd oneState 0 :=
  c9_walk_direction_agnostic oneState_WF 0 (by decide)

/-- C10: whenever `pop_front`, `pop_back` or `remove_at` returns `None`, the
list state — size, anchors and every heap cell — is exactly unchanged. -/
theorem c10_none_leaves_unchanged {T : Type} (s s' : XorLinkedList T)
    (i : Nat) :
    (pop_front s = some (none, s') → s' = s) ∧
    (pop_back s = some (none, s') → s' = s) ∧
    (remove_at s i = some (none, s') → s' = s) :=
  ⟨pop_front_none_unchanged, pop_back_none_unchanged,
    remove_at_none_unchanged⟩

theorem c10_witness :
    new Nat = new Nat ∧ pop_front (new Nat) = some (none, new Nat) :=
  ⟨(c10_none_leaves_unchanged (new Nat) (new Nat) 0).1 rfl, rfl⟩

end XorList
